import Mathlib

/-!
Verification development for the itjobs / Teamlyzer job-posting CLI
(files jobscli.py, jobscli2.py, tgambientes.py).

The Python code is shallowly embedded: strings are lists of characters,
JSON payloads are a JVal inductive, network fetches are parameters of
type Option String (none models a transport failure caught by the code).
Every definition in the first part of the file is a direct translation
of a function of the source; definitions whose name ends in Claimed or
Spec render a sentence of the specification instead and are only used
to compare the two.
-/

/- ================================================================
   Part 1: characters and low-level text helpers
   ================================================================ -/

/-- Model of the whitespace class used by Python str.strip and the
regular-expression class backslash-s, restricted to the characters that
occur in this development (ASCII whitespace and the no-break space). -/
def isPySpace (c : Char) : Bool :=
  c = ' ' || c = '\t' || c = '\n' || c = '\r' || c = '\x0b' || c = '\x0c' || c = '\u00A0'

/-- Horizontal-whitespace class of the literal regex [ tab cr ff vt ] used by
the HTML converter (it deliberately excludes the newline). -/
def isHWS (c : Char) : Bool :=
  c = ' ' || c = '\t' || c = '\r' || c = '\x0c' || c = '\x0b'

/-- Unicode combining marks: the combining diacritical marks block U+0300 to U+036F,
the range produced by the NFKD decompositions modelled here (unicodedata.combining
is nonzero exactly on such marks). -/
def isCombining (c : Char) : Bool :=
  0x300 ≤ c.toNat && c.toNat ≤ 0x36F

/-- Association-list lookup returning the first binding, the model of
Python dict.get on dictionaries rendered as ordered key-value lists. -/
def alookup {α β : Type} [DecidableEq α] (k : α) : List (α × β) → Option β
  | [] => none
  | (k', v) :: rest => if k = k' then some v else alookup k rest

/-- Lower-case table of Python str.lower for the characters modelled here:
ASCII letters and the accented Latin capitals that occur in the data. -/
def lowerPairs : List (Char × Char) :=
  [('A', 'a'), ('B', 'b'), ('C', 'c'), ('D', 'd'), ('E', 'e'), ('F', 'f'),
   ('G', 'g'), ('H', 'h'), ('I', 'i'), ('J', 'j'), ('K', 'k'), ('L', 'l'),
   ('M', 'm'), ('N', 'n'), ('O', 'o'), ('P', 'p'), ('Q', 'q'), ('R', 'r'),
   ('S', 's'), ('T', 't'), ('U', 'u'), ('V', 'v'), ('W', 'w'), ('X', 'x'),
   ('Y', 'y'), ('Z', 'z'),
   ('À', 'à'), ('Á', 'á'), ('Â', 'â'), ('Ã', 'ã'), ('Ç', 'ç'),
   ('É', 'é'), ('Ê', 'ê'), ('Í', 'í'), ('Ó', 'ó'), ('Ô', 'ô'),
   ('Õ', 'õ'), ('Ú', 'ú'), ('Ü', 'ü')]

/-- Per-character model of Python str.lower. -/
def pyLower (c : Char) : Char := (alookup c lowerPairs).getD c

/-- NFKD decomposition table of unicodedata.normalize for the characters
modelled here: accented lower-case Latin letters decompose to the base
letter followed by a combining mark, the no-break space decomposes to a
plain space, and the spacing accents U+00B4 and U+00A8 decompose to a
space followed by a combining mark (their real compatibility mappings). -/
def nfkdPairs : List (Char × List Char) :=
  [('à', ['a', '\u0300']), ('á', ['a', '\u0301']), ('â', ['a', '\u0302']),
   ('ã', ['a', '\u0303']), ('ä', ['a', '\u0308']), ('ç', ['c', '\u0327']),
   ('è', ['e', '\u0300']), ('é', ['e', '\u0301']), ('ê', ['e', '\u0302']),
   ('ì', ['i', '\u0300']), ('í', ['i', '\u0301']), ('ò', ['o', '\u0300']),
   ('ó', ['o', '\u0301']), ('ô', ['o', '\u0302']), ('õ', ['o', '\u0303']),
   ('ù', ['u', '\u0300']), ('ú', ['u', '\u0301']), ('ü', ['u', '\u0308']),
   ('\u00A0', [' ']), ('\u00B4', [' ', '\u0301']), ('\u00A8', [' ', '\u0308'])]

/-- Per-character model of NFKD decomposition (identity off the table). -/
def nfkdChar (c : Char) : List Char := (alookup c nfkdPairs).getD [c]

/-- Concatenated per-character NFKD decomposition of a character list. -/
def expandNFKD : List Char → List Char
  | [] => []
  | c :: rest => nfkdChar c ++ expandNFKD rest

/-- Drop trailing whitespace, the right half of Python str.strip. -/
def dropTrailingWS : List Char → List Char
  | [] => []
  | c :: rest =>
    match dropTrailingWS rest with
    | [] => if isPySpace c then [] else [c]
    | r => c :: r

/-- Model of Python str.strip with no argument. -/
def pyStrip (l : List Char) : List Char := dropTrailingWS (l.dropWhile isPySpace)

/-- State machine for re.sub of one-or-more whitespace to a single space:
the flag records whether the previous character was whitespace. -/
def collapseAux : Bool → List Char → List Char
  | _, [] => []
  | prevSp, c :: rest =>
    if isPySpace c then
      if prevSp then collapseAux true rest else ' ' :: collapseAux true rest
    else c :: collapseAux false rest

/-- Model of re.sub collapsing whitespace runs to one space. -/
def collapseWS (l : List Char) : List Char := collapseAux false l

/-- Model of the function underscore-norm of jobscli2.py and tgambientes.py:
strip, lower-case, NFKD-decompose, drop combining marks, collapse
whitespace runs to single spaces. -/
def pyNorm (l : List Char) : List Char :=
  collapseWS (List.filter (fun c => !isCombining c) (expandNFKD ((pyStrip l).map pyLower)))

/-- Convenience: the character list of a string literal. -/
def toL (s : String) : List Char := s.data

/-- True when the list does not start with a whitespace character. -/
def headNotSpaceB : List Char → Bool
  | [] => true
  | c :: _ => !isPySpace c

/-- Well-formed whitespace shape: every whitespace character is a plain
space and no two whitespace characters are adjacent (the shape of the
output of collapseWS). -/
def wsOK : List Char → Bool
  | [] => true
  | c :: rest => (if isPySpace c then c = ' ' && headNotSpaceB rest else true) && wsOK rest

/- ================================================================
   Part 2: JSON payloads and the response normalizer
   ================================================================ -/

/-- Decoded JSON values. Python dictionaries are rendered as ordered
key-value lists (Python dicts preserve insertion order); numbers are
modelled as integers, which covers every payload this development
evaluates. -/
inductive JVal where
  | null : JVal
  | bool : Bool → JVal
  | num : Int → JVal
  | str : String → JVal
  | arr : List JVal → JVal
  | obj : List (String × JVal) → JVal

/-- Python truthiness of a decoded JSON value. -/
def jvTruthy : JVal → Bool
  | .null => false
  | .bool b => b
  | .num n => n != 0
  | .str s => s != ""
  | .arr l => !l.isEmpty
  | .obj fs => !fs.isEmpty

/-- Quote chosen by Python repr for a string: double quotes when the text
holds a single quote but no double quote, else single quotes. -/
def reprQuote (s : List Char) : Char :=
  if s.any (fun c => c = '\'') && !(s.any (fun c => c = '"')) then '"' else '\''

/-- Python repr escaping of one character inside the chosen quotes
(backslash, the quote, and the common control characters; other
characters are kept as they are, the scope met by this development). -/
def reprEscChar (q c : Char) : List Char :=
  if c = '\\' then ['\\', '\\']
  else if c = q then ['\\', q]
  else if c = '\n' then ['\\', 'n']
  else if c = '\r' then ['\\', 'r']
  else if c = '\t' then ['\\', 't']
  else [c]

/-- Python repr of a string. -/
def pyReprStr (s : List Char) : List Char :=
  reprQuote s :: (s.foldr (fun c acc => reprEscChar (reprQuote s) c ++ acc) []) ++ [reprQuote s]

mutual

/-- Python repr of a decoded JSON value (list and dict notation with
single-quoted strings, True, False, None). -/
def pyRepr : JVal → List Char
  | .null => toL "None"
  | .bool true => toL "True"
  | .bool false => toL "False"
  | .num n => (toString n).data
  | .str s => pyReprStr s.data
  | .arr l => '[' :: pyReprList l ++ [']']
  | .obj fs => '\x7b' :: pyReprFields fs ++ ['\x7d']

/-- Comma-separated repr of list elements. -/
def pyReprList : List JVal → List Char
  | [] => []
  | [x] => pyRepr x
  | x :: y :: rest => pyRepr x ++ toL ", " ++ pyReprList (y :: rest)

/-- Comma-separated repr of dict items. -/
def pyReprFields : List (String × JVal) → List Char
  | [] => []
  | [(k, v)] => pyReprStr k.data ++ toL ": " ++ pyRepr v
  | (k, v) :: q :: rest =>
    pyReprStr k.data ++ toL ": " ++ pyRepr v ++ toL ", " ++ pyReprFields (q :: rest)

end

/-- Model of Python str applied to a decoded JSON value: a string is
itself, everything else prints through repr. -/
def pyStr : JVal → List Char
  | .str s => s.data
  | v => pyRepr v

/-- Lower-case hexadecimal digit. -/
def hexDigit (n : ℕ) : Char := if n < 10 then Char.ofNat (48 + n) else Char.ofNat (87 + n)

/-- Four lower-case hexadecimal digits. -/
def hex4 (n : ℕ) : List Char :=
  [hexDigit (n / 4096 % 16), hexDigit (n / 256 % 16), hexDigit (n / 16 % 16), hexDigit (n % 16)]

/-- json.dumps escaping of one character with the default ensure-ascii:
quote, backslash and control characters take their escape sequences, every
character beyond ASCII becomes a backslash-u sequence (a surrogate pair
above the basic plane), the rest stand for themselves. -/
def jsonEscChar (c : Char) : List Char :=
  if c = '"' then ['\\', '"']
  else if c = '\\' then ['\\', '\\']
  else if c = '\n' then ['\\', 'n']
  else if c = '\r' then ['\\', 'r']
  else if c = '\t' then ['\\', 't']
  else if c = '\x08' then ['\\', 'b']
  else if c = '\x0c' then ['\\', 'f']
  else if c.toNat < 0x20 then '\\' :: 'u' :: hex4 c.toNat
  else if c.toNat < 0x7F then [c]
  else if c.toNat ≤ 0xFFFF then '\\' :: 'u' :: hex4 c.toNat
  else
    ('\\' :: 'u' :: hex4 (0xD800 + (c.toNat - 0x10000) / 1024)) ++
    ('\\' :: 'u' :: hex4 (0xDC00 + (c.toNat - 0x10000) % 1024))

/-- json.dumps of a string. -/
def jsonStr (s : List Char) : List Char :=
  '"' :: (s.foldr (fun c acc => jsonEscChar c ++ acc) []) ++ ['"']

mutual

/-- Model of json.dumps with its default separators and ensure-ascii. -/
def jsonDumps : JVal → List Char
  | .null => toL "null"
  | .bool true => toL "true"
  | .bool false => toL "false"
  | .num n => (toString n).data
  | .str s => jsonStr s.data
  | .arr l => '[' :: jsonDumpsList l ++ [']']
  | .obj fs => '\x7b' :: jsonDumpsFields fs ++ ['\x7d']

/-- Comma-separated dumps of array elements. -/
def jsonDumpsList : List JVal → List Char
  | [] => []
  | [x] => jsonDumps x
  | x :: y :: rest => jsonDumps x ++ toL ", " ++ jsonDumpsList (y :: rest)

/-- Comma-separated dumps of object members. -/
def jsonDumpsFields : List (String × JVal) → List Char
  | [] => []
  | [(k, v)] => jsonStr k.data ++ toL ": " ++ jsonDumps v
  | (k, v) :: q :: rest =>
    jsonStr k.data ++ toL ": " ++ jsonDumps v ++ toL ", " ++ jsonDumpsFields (q :: rest)

end

/-- The preferred wrapper keys tried, in order, by the response normalizer. -/
def jobsKeys : List String := ["jobs", "results", "data", "items"]

/-- First key of the given list whose value in the object is an array. -/
def firstArrAtKeys : List String → List (String × JVal) → Option (List JVal)
  | [], _ => none
  | k :: ks, fs =>
    match alookup k fs with
    | some (.arr l) => some l
    | _ => firstArrAtKeys ks fs

/-- First array-valued member of the object, in member order. -/
def firstArrValue : List (String × JVal) → Option (List JVal)
  | [] => none
  | (_, .arr l) :: _ => some l
  | _ :: rest => firstArrValue rest

/-- Model of the function underscore-extract-jobs-from-response (identical in
all three source files): a bare array is returned as is; on an object the
keys jobs, results, data, items are tried in order for an array value, then
the first array-valued member is used; everything else gives the empty list. -/
def extract_jobs_from_response : JVal → List JVal
  | .arr l => l
  | .obj fs =>
    match firstArrAtKeys jobsKeys fs with
    | some l => l
    | none =>
      match firstArrValue fs with
      | some l => l
      | none => []
  | _ => []

/-- Rendering of the specification sentence for the response normalizer,
stated independently of the loop structure of the code: the payload itself
for a bare array; for an object, the head of the list of array values found
under the preferred keys in their stated order, or else the head of the
array-valued members in member order, or else the empty sequence. -/
def extractJobsSpec (d : JVal) : List JVal :=
  match d with
  | .arr l => l
  | .obj fs =>
    match (jobsKeys.filterMap (fun k =>
        match alookup k fs with
        | some (.arr l) => some l
        | _ => none)).head? with
    | some l => l
    | none =>
      match ((fs.map Prod.snd).filterMap (fun v =>
          match v with
          | .arr l => some l
          | _ => none)).head? with
      | some l => l
      | none => []
  | _ => []

/- ================================================================
   Part 3: per-field extraction (CSV normalizer, zone, type)
   ================================================================ -/

/-- The stripped string of a string-valued JSON member, when non blank. -/
def strippedStr : JVal → Option (List Char)
  | .str s => if pyStrip s.data = [] then none else some (pyStrip s.data)
  | _ => none

/-- Model of the inner helper pick of the CSV normalizer of all three
source files: return the value of the first candidate key whose value is
truthy, else the empty string. No nested object is unwrapped here. -/
def pick (job : List (String × JVal)) : List String → JVal
  | [] => .str ""
  | k :: ks =>
    match alookup k job with
    | some v => if jvTruthy v then v else pick job ks
    | none => pick job ks

/-- Model of the function underscore-normalize-job-for-csv: the six CSV
fields, each picked from its candidate keys with pick and passed through
Python str. -/
def normalize_job_for_csv (job : List (String × JVal)) : List (String × List Char) :=
  [("titulo", pyStr (pick job ["title", "titulo", "job_title"])),
   ("empresa", pyStr (pick job ["company", "empresa", "company_name"])),
   ("descricao", pyStr (pick job ["description", "descricao", "job_description"])),
   ("data_de_publicacao", pyStr (pick job ["date", "date_published", "published_at", "data"])),
   ("salario", pyStr (pick job ["salary", "salario"])),
   ("localizacao", pyStr (pick job ["location", "localidade", "city"]))]

/-- First key of the given list whose value is a non-blank string,
returned stripped: the per-key loop that the source writes three times,
over the flat candidates of the zone and type extractors and over the
sub-keys name, title, nome of a nested object inside
underscore-pick-job-field (each sub-key gets its own isinstance-and-strip
test, so a non-string or blank-string value is passed over and the next
sub-key is tried). -/
def firstStrField (job : List (String × JVal)) : List String → Option (List Char)
  | [] => none
  | k :: ks =>
    match alookup k job with
    | some (.str s) =>
      if pyStrip s.data = [] then firstStrField job ks else some (pyStrip s.data)
    | _ => firstStrField job ks

/-- The or-chain over given sub-keys of a nested object, as the zone and
type extractors write it: Python evaluates the chain of lookups to the
first truthy value, and the caller keeps it, stripped, only when it is a
non-blank string (a truthy non-string value therefore blocks the chain). -/
def firstElemName (keys : List String) (ofs : List (String × JVal)) : Option (List Char) :=
  match keys.filterMap (fun kk =>
      match alookup kk ofs with
      | some v => if jvTruthy v then some v else none
      | none => none) |>.head? with
  | some v => strippedStr v
  | none => none

/-- Model of the function underscore-pick-job-field of jobscli2.py and
tgambientes.py: first candidate key whose value is a non-blank string
(returned stripped) or a nested object one of whose sub-keys name, title,
nome is, in that order, a non-blank string (returned stripped; each
sub-key is tested separately, so a non-string or blank name does not stop
title or nome from matching); empty string when nothing matches. -/
def pick_job_field (job : List (String × JVal)) : List String → List Char
  | [] => []
  | k :: ks =>
    match alookup k job with
    | some (.str s) =>
      if pyStrip s.data = [] then pick_job_field job ks else pyStrip s.data
    | some (.obj ofs) =>
      match firstStrField ofs ["name", "title", "nome"] with
      | some r => r
      | none => pick_job_field job ks
    | _ => pick_job_field job ks

/-- The fallback candidate keys of the zone extractor. -/
def zoneKeys : List String := ["location", "localizacao", "localidade", "city", "region", "zona"]

/-- The flat candidate keys of the type extractor. -/
def typeKeys : List String := ["type", "tipo", "employment_type", "contract_type", "contract"]

/-- Model of the function underscore-extract-zone-from-job of jobscli2.py
and tgambientes.py: the name (or title, or nome) of the first element of a
non-empty locations array, or that element itself if a non-blank string;
else the first non-blank flat candidate; else Unknown. -/
def extract_zone_from_job (job : List (String × JVal)) : List Char :=
  match
    (match alookup "locations" job with
     | some (.arr (first :: _)) =>
       match first with
       | .obj ofs =>
         match firstElemName ["name", "title", "nome"] ofs with
         | some r => some r
         | none => none
       | .str s => if pyStrip s.data = [] then none else some (pyStrip s.data)
       | _ => none
     | _ => none)
  with
  | some r => r
  | none =>
    match firstStrField job zoneKeys with
    | some r => r
    | none => toL "Unknown"

/-- Model of the function underscore-extract-type-from-job of jobscli2.py
and tgambientes.py: the first non-blank flat candidate among type, tipo,
employment-type, contract-type, contract; else the name or title of the
first element of a types array, or that element itself if a non-blank
string; else Unknown. -/
def extract_type_from_job (job : List (String × JVal)) : List Char :=
  match firstStrField job typeKeys with
  | some r => r
  | none =>
    match
      (match alookup "types" job with
       | some (.arr (first :: _)) =>
         match first with
         | .obj ofs => firstElemName ["name", "title"] ofs
         | .str s => if pyStrip s.data = [] then none else some (pyStrip s.data)
         | _ => none
       | _ => none)
    with
    | some r => r
    | none => toL "Unknown"

/- ================================================================
   Part 4: enrichment (dict copy plus update)
   ================================================================ -/

/-- The four keys that the Teamlyzer scraper always returns, in the order
the scraper builds them. -/
def teamKeys : List String :=
  ["teamlyzer_rating", "teamlyzer_description", "teamlyzer_benefits", "teamlyzer_salary"]

/-- One step of Python dict.update: an existing key is overwritten in
place, a new key is appended at the end. -/
def updateOne (fs : List (String × JVal)) (k : String) (v : JVal) : List (String × JVal) :=
  if fs.any (fun p => p.1 == k) then fs.map (fun p => if p.1 == k then (k, v) else p)
  else fs ++ [(k, v)]

/-- Python dict.update of an ordered dictionary by an ordered dictionary. -/
def dictUpdate (fs upd : List (String × JVal)) : List (String × JVal) :=
  upd.foldl (fun acc kv => updateOne acc kv.1 kv.2) fs

/-- Model of enrich-job-with-teamlyzer of jobscli2.py and tgambientes.py:
a dict input is copied and updated with the scrape result (whose binding
list is the info argument; the scraper always produces exactly the four
teamKeys); any other input is wrapped as the data member of a fresh dict,
without enrichment. -/
def enrich_job_with_teamlyzer (job : JVal) (info : List (String × JVal)) : JVal :=
  match job with
  | .obj fs => .obj (dictUpdate fs info)
  | other => .obj [("data", other)]

/- ================================================================
   Part 5: the rating extractor
   ================================================================ -/

/-- ASCII decimal digit (the digits that occur in the scraped pages). -/
def isDigitB (c : Char) : Bool := '0' ≤ c && c ≤ '9'

/-- The value a scraped rating takes in the code: absent (None), a parsed
number, or the raw matched text when float parsing fails. The parsed
decimal is held exactly, in tenths: numR 38 is the number 3.8. -/
inductive Rating where
  | nullR : Rating
  | numR : ℕ → Rating
  | rawR : List Char → Rating
deriving DecidableEq

/-- After the captured group: optional whitespace, a slash, optional
whitespace, then the digit five, as in the tail of the rating regex. -/
def slashFive (l : List Char) : Bool :=
  match l.dropWhile isPySpace with
  | '/' :: r =>
    match r.dropWhile isPySpace with
    | '5' :: _ => true
    | _ => false
  | _ => false

/-- Attempt of the rating regex at one position of the text: a digit,
optionally followed by a dot and a digit (tried greedily first, as the
regex engine does), then slash five; the returned list is the captured
group. -/
def matchRatingAt : List Char → Option (List Char)
  | [] => none
  | d :: rest =>
    if isDigitB d then
      match rest with
      | '.' :: d2 :: rest2 =>
        if isDigitB d2 && slashFive rest2 then some [d, '.', d2]
        else if slashFive rest then some [d] else none
      | _ => if slashFive rest then some [d] else none
    else none

/-- Python float of a captured rating group: one digit, or digit dot digit,
give the evident decimal (in tenths); no other shape reaches this parser,
so the raw fallback of the code stays unused. -/
def parseRatingGroup : List Char → Rating
  | [d] => .numR ((d.toNat - 48) * 10)
  | [d, '.', d2] => .numR ((d.toNat - 48) * 10 + (d2.toNat - 48))
  | g => .rawR g

/-- Model of the rating step of the scraper: scan the converted text left
to right and parse the first position where the rating pattern matches;
None when no position matches. -/
def extractRating : List Char → Rating
  | [] => .nullR
  | c :: rest =>
    match matchRatingAt (c :: rest) with
    | some g => parseRatingGroup g
    | none => extractRating rest

/-- Specification view of first occurrence: the match at the first (i.e.
leftmost) suffix of the text where the pattern matches at all. -/
def firstRatingMatch (l : List Char) : Option (List Char) :=
  (l.tails.filterMap matchRatingAt).head?

/- ================================================================
   Part 6: the skills aggregator
   ================================================================ -/

/-- The first list starts the second (plain literal comparison). -/
def startsWithL : List Char → List Char → Bool
  | [], _ => true
  | _ :: _, [] => false
  | p :: ps, c :: cs => p = c && startsWithL ps cs

/-- The first list occurs somewhere inside the second. -/
def containsSub (pat : List Char) : List Char → Bool
  | [] => pat.isEmpty
  | c :: cs => startsWithL pat (c :: cs) || containsSub pat cs

/-- Gregorian leap year, as datetime uses it. -/
def isLeap (y : ℕ) : Bool := y % 4 = 0 && (y % 100 ≠ 0 || y % 400 = 0)

/-- Days of a month, as datetime uses them. -/
def daysInMonth (y m : ℕ) : ℕ :=
  if m = 2 then (if isLeap y then 29 else 28)
  else if m = 4 || m = 6 || m = 9 || m = 11 then 30 else 31

/-- Validity check of date.fromisoformat on a year-month-day triple. -/
def validDate : ℕ × ℕ × ℕ → Bool
  | (y, m, d) =>
    1 ≤ y && y ≤ 9999 && 1 ≤ m && m ≤ 12 && 1 ≤ d && d ≤ daysInMonth y m

/-- Date comparison (lexicographic on year, month, day). -/
def dateLE : ℕ × ℕ × ℕ → ℕ × ℕ × ℕ → Bool
  | (y1, m1, d1), (y2, m2, d2) =>
    y1 < y2 || (y1 = y2 && (m1 < m2 || (m1 = m2 && d1 ≤ d2)))

/-- Numeric value of an ASCII digit. -/
def digitVal (c : Char) : ℕ := c.toNat - 48

/-- The date regex (four digits, hyphen, two digits, hyphen, two digits)
tried at one position of the text. -/
def dateAt : List Char → Option (ℕ × ℕ × ℕ)
  | c1 :: c2 :: c3 :: c4 :: h1 :: c5 :: c6 :: h2 :: c7 :: c8 :: _ =>
    if isDigitB c1 && isDigitB c2 && isDigitB c3 && isDigitB c4 && h1 = '-' &&
       isDigitB c5 && isDigitB c6 && h2 = '-' && isDigitB c7 && isDigitB c8 then
      some (((digitVal c1 * 10 + digitVal c2) * 10 + digitVal c3) * 10 + digitVal c4,
            digitVal c5 * 10 + digitVal c6,
            digitVal c7 * 10 + digitVal c8)
    else none
  | _ => none

/-- Leftmost match of the date regex in the text (re.search). -/
def firstDateIn : List Char → Option (ℕ × ℕ × ℕ)
  | [] => none
  | c :: rest =>
    match dateAt (c :: rest) with
    | some t => some t
    | none => firstDateIn rest

/-- The window gate of the skills command on one job: serialize the job
with json.dumps, lower-case, find the first embedded date, and require a
valid date inside the inclusive window; a job with no parseable date, or
a date outside the window, contributes nothing. -/
def jobInWindow (sd ed : ℕ × ℕ × ℕ) (job : List (String × JVal)) : Bool :=
  match firstDateIn ((jsonDumps (.obj job)).map pyLower) with
  | none => false
  | some t => validDate t && dateLE sd t && dateLE t ed

/-- Regex word character (ASCII letters, digits, underscore). -/
def isWordChar (c : Char) : Bool :=
  isDigitB c || ('a' ≤ c && c ≤ 'z') || ('A' ≤ c && c ≤ 'Z') || c = '_'

/-- Word-character test of an optional character; out of range counts as
not a word character, as the regex boundary does at the text edges. -/
def isWordOpt : Option Char → Bool
  | none => false
  | some c => isWordChar c

/-- re.findall of a word-boundary-delimited literal: scan left to right,
count non-overlapping matches whose two ends both sit on a word boundary,
and resume after each match. Fuel is the length of the text, enough since
every step consumes at least one character. -/
def findallWB (pat : List Char) : ℕ → Option Char → List Char → ℕ
  | 0, _, _ => 0
  | _ + 1, _, [] => 0
  | fuel + 1, prev, c :: cs =>
    match pat with
    | [] => 0
    | p0 :: _ =>
      if startsWithL pat (c :: cs) &&
         (isWordOpt prev != isWordChar p0) &&
         (isWordChar (pat.getLastD p0) != isWordOpt (((c :: cs).drop pat.length).head?)) then
        1 + findallWB pat fuel (some (pat.getLastD p0)) ((c :: cs).drop pat.length)
      else findallWB pat fuel (some c) cs

/-- Count of word-boundary matches of a literal in a text. -/
def countWB (pat text : List Char) : ℕ := findallWB pat text.length none text

/-- The default skill vocabulary of the skills command. -/
def skillsList : List String :=
  ["python", "java", "javascript", "c#", "php", "sql", "aws",
   "docker", "kubernetes", "react", "angular"]

/-- The text a job is scanned over: str of title, a space, str of
description, lower-cased. -/
def contentOf (job : List (String × JVal)) : List Char :=
  (pyStr ((alookup "title" job).getD (.str "")) ++ ' ' ::
   pyStr ((alookup "description" job).getD (.str ""))).map pyLower

/-- One in-window job adds its match count of every skill. -/
def updateCounts (cs : List (String × ℕ)) (content : List Char) : List (String × ℕ) :=
  cs.map (fun p => (p.1, p.2 + countWB p.1.data content))

/-- Stable insertion: walk past every element that must strictly precede
the new one, so that ties keep first-come order. -/
def insertBy {α : Type} (lt : α → α → Bool) (x : α) : List α → List α
  | [] => [x]
  | y :: ys => if lt y x then y :: insertBy lt x ys else x :: y :: ys

/-- Stable sort by a strict precedence test (the model of Python sorted). -/
def sortBy {α : Type} (lt : α → α → Bool) (l : List α) : List α :=
  l.foldr (insertBy lt) []

/-- The head, if any, does not strictly precede the given element. -/
def headNotLtB {α : Type} (lt : α → α → Bool) (a : α) : List α → Bool
  | [] => true
  | b :: _ => !lt b a

/-- Sortedness for a strict precedence test: no adjacent pair is inverted. -/
def chainDescOK {α : Type} (lt : α → α → Bool) : List α → Bool
  | [] => true
  | a :: l => headNotLtB lt a l && chainDescOK lt l

/-- Strict precedence of the skills output: strictly greater count first
(Python sorted with reverse on the count, stable on ties). -/
def countLt (a b : String × ℕ) : Bool := b.2 < a.2

/-- Model of the counting core of the skills command of jobscli.py and
jobscli2.py: zero-initialised counts over the vocabulary, one update per
job passing the window gate, then the positive counts sorted by
descending count. -/
def skillsRun (sd ed : ℕ × ℕ × ℕ) (jobs : List (List (String × JVal))) : List (String × ℕ) :=
  let counts := jobs.foldl
    (fun cs job => if jobInWindow sd ed job then updateCounts cs (contentOf job) else cs)
    (skillsList.map (fun k => (k, 0)))
  sortBy countLt (counts.filter (fun p => 0 < p.2))

/-- The first example job of the specification: dated 2025-03-01, with a
description naming Python twice and AWS once. -/
def skillsJobA : List (String × JVal) :=
  [("date", .str "2025-03-01"), ("title", .str ""),
   ("description", .str "We use Python and AWS daily, Python is core")]

/-- The second example job of the specification: dated 2024-12-31. -/
def skillsJobB : List (String × JVal) :=
  [("date", .str "2024-12-31"), ("title", .str ""), ("description", .str "Python")]

/- ================================================================
   Part 7: the zone and type statistics
   ================================================================ -/

/-- Python string comparison: lexicographic on code points. -/
def strLt : List Char → List Char → Bool
  | [], [] => false
  | [], _ :: _ => true
  | _ :: _, [] => false
  | a :: as, b :: bs => a.toNat < b.toNat || (a = b && strLt as bs)

/-- The lower-cased sort key of a zone or type string. -/
def lowerKey (s : List Char) : List Char := s.map pyLower

/-- Strict precedence of the statistics rows: the sort key of the source
is the triple (zone lower-cased, negated count, type lower-cased),
compared lexicographically. -/
def statLt (a b : (List Char × List Char) × ℕ) : Bool :=
  if lowerKey a.1.1 = lowerKey b.1.1 then
    (if a.2 = b.2 then strLt (lowerKey a.1.2) (lowerKey b.1.2) else b.2 < a.2)
  else strLt (lowerKey a.1.1) (lowerKey b.1.1)

/-- Python counts-dict increment: bump an existing key in place, append a
new key at the end. -/
def bump : List ((List Char × List Char) × ℕ) → List Char × List Char →
    List ((List Char × List Char) × ℕ)
  | [], k => [(k, 1)]
  | (k0, n) :: rest, k => if k0 = k then (k0, n + 1) :: rest else (k0, n) :: bump rest k

/-- First of the given wrapper keys whose value is an object. -/
def firstObjAt : List String → List (String × JVal) → Option (List (String × JVal))
  | [], _ => none
  | k :: ks, fs =>
    match alookup k fs with
    | some (.obj o) => some o
    | _ => firstObjAt ks fs

/-- The wrapper unwrap of the statistics and get commands: a detail payload
sometimes wraps the job dict under job, data or result. -/
def unwrapDetail (d : JVal) : JVal :=
  match d with
  | .obj fs =>
    match firstObjAt ["job", "data", "result"] fs with
    | some inner => .obj inner
    | none => d
  | _ => d

/-- The raw zone and type pair of one fetched detail: none models a fetch
that failed (caught and skipped by the per-job try) and a non-dict detail
(whose attribute access raises inside the same try); otherwise the
unwrapped job dict goes through the zone and type extractors. -/
def keyOf : Option JVal → Option (List Char × List Char)
  | none => none
  | some detail =>
    match unwrapDetail detail with
    | .obj fs => some (extract_zone_from_job fs, extract_type_from_job fs)
    | _ => none

/-- One step of the statistics loop over a fetched detail. -/
def statStep (cs : List ((List Char × List Char) × ℕ)) (d : Option JVal) :
    List ((List Char × List Char) × ℕ) :=
  match keyOf d with
  | some k => bump cs k
  | none => cs

/-- The unsorted zone-and-type counts of a batch of fetched details. -/
def aggregateCounts (fetched : List (Option JVal)) : List ((List Char × List Char) × ℕ) :=
  fetched.foldl statStep []

/-- Model of the statistics command core of jobscli2.py and tgambientes.py:
count fetched details by their raw zone and type pair, then sort rows by
zone (case-insensitive), count (descending), type (case-insensitive). -/
def statisticsRows (fetched : List (Option JVal)) : List ((List Char × List Char) × ℕ) :=
  sortBy statLt (aggregateCounts fetched)

/-- A batch of fetched details exercising case-sensitive keys, a wrapped
detail, a failed fetch and every tier of the sort order. -/
def statExample : List (Option JVal) :=
  [some (.obj [("location", .str "Porto"), ("type", .str "Remote")]),
   none,
   some (.obj [("job", .obj [("location", .str "Porto"), ("type", .str "Remote")])]),
   some (.obj [("location", .str "porto"), ("type", .str "remote")]),
   some (.obj [("location", .str "Aveiro"), ("type", .str "Hybrid")]),
   some (.obj [("location", .str "Porto"), ("type", .str "b")]),
   some (.obj [("location", .str "porto"), ("type", .str "a")])]

/- ================================================================
   Part 8: the benefits extractor
   ================================================================ -/

/-- Python str.split on the newline character, empty pieces kept. -/
def splitNL : List Char → List (List Char)
  | [] => [[]]
  | '\n' :: rest => [] :: splitNL rest
  | c :: rest =>
    match splitNL rest with
    | [] => [[c]]
    | l :: ls => (c :: l) :: ls

/-- The bullet marker the converter leaves at the start of a list item. -/
def bulletMark : List Char := ['*', ' ']

/-- Case-insensitive search of the benefits section header regex (covering
its two spellings, with and without the accent). -/
def hasBenefitsHdr (s : List Char) : Bool :=
  containsSub (toL "beneficios e vantagens") (lowerKey s) ||
  containsSub (toL "benefícios e vantagens") (lowerKey s)

/-- Case-insensitive search of the values-and-culture section header. -/
def hasValoresHdr (s : List Char) : Bool :=
  containsSub (toL "valores e cultura") (lowerKey s)

/-- The collection loop of the benefits scraper over the stripped lines of
the converted page (the code strips each line first and works on the
stripped text throughout): a line matching the benefits header turns
collection on and is itself skipped; a values-and-culture line while
collecting stops everything; a bullet line while collecting contributes
its text after the marker, stripped, when at least 3 characters long. -/
def benefitsLoop : Bool → List (List Char) → List (List Char)
  | _, [] => []
  | inB, s :: rest =>
    if hasBenefitsHdr s then benefitsLoop true rest
    else if inB && hasValoresHdr s then []
    else if inB && startsWithL bulletMark s then
      (if 3 ≤ (pyStrip (s.drop 2)).length then pyStrip (s.drop 2) :: benefitsLoop inB rest
       else benefitsLoop inB rest)
    else benefitsLoop inB rest

/-- The deduplication of the code: keep the first occurrence of each
normalized text, and drop bullets whose normalized text is empty (the
truthiness test on the normalized text). -/
def dedupNormAux (seen : List (List Char)) : List (List Char) → List (List Char)
  | [] => []
  | b :: rest =>
    if !(pyNorm b).isEmpty && !seen.contains (pyNorm b)
    then b :: dedupNormAux (pyNorm b :: seen) rest
    else dedupNormAux seen rest

/-- Model of the benefits half of the scraper of jobscli2.py and
tgambientes.py: collect bullets, deduplicate by normalized text, truncate
to the configured top count (the call site passes 5). -/
def benefitsFromText (text : List Char) (topN : ℕ) : List (List Char) :=
  (dedupNormAux [] (benefitsLoop false ((splitNL text).map pyStrip))).take topN

/-- Drop lines up to and including the first benefits header line; none
when no line matches. -/
def dropThroughHdr : List (List Char) → Option (List (List Char))
  | [] => none
  | s :: rest => if hasBenefitsHdr s then some rest else dropThroughHdr rest

/-- Deduplication exactly as the claim words it: first occurrence of each
normalized text is kept (no further condition). -/
def dedupAllAux (seen : List (List Char)) : List (List Char) → List (List Char)
  | [] => []
  | b :: rest =>
    if seen.contains (pyNorm b) then dedupAllAux seen rest
    else b :: dedupAllAux (pyNorm b :: seen) rest

/-- Rendering of claim C4 as stated: exactly the bullet-prefixed lines
after the first benefits header and before the next values-and-culture
header (or end of text), bullets shorter than 3 characters after trimming
discarded, duplicates removed by normalized text keeping first
occurrence, truncated to the top count. -/
def benefitsClaimed (text : List Char) (topN : ℕ) : List (List Char) :=
  let ls := (splitNL text).map pyStrip
  match dropThroughHdr ls with
  | none => []
  | some after =>
    (dedupAllAux [] ((after.takeWhile (fun s => !hasValoresHdr s)).filterMap (fun s =>
      if startsWithL bulletMark s && decide (3 ≤ (pyStrip (s.drop 2)).length)
      then some (pyStrip (s.drop 2)) else none))).take topN

/-- The amended rendering of claim C4, matching the code: a bullet line
that itself matches the benefits header pattern is skipped (the header
branch of the loop fires first and continues), a values-and-culture line
that also matches the benefits header does not stop collection for the
same reason, and bullets whose normalized text is empty are dropped by
the deduplication. -/
def benefitsAmendedSpec (text : List Char) (topN : ℕ) : List (List Char) :=
  let ls := (splitNL text).map pyStrip
  match dropThroughHdr ls with
  | none => []
  | some after =>
    (dedupNormAux []
      ((after.takeWhile (fun s => !(hasValoresHdr s && !hasBenefitsHdr s))).filterMap (fun s =>
        if !hasBenefitsHdr s && startsWithL bulletMark s && decide (3 ≤ (pyStrip (s.drop 2)).length)
        then some (pyStrip (s.drop 2)) else none))).take topN

/- ================================================================
   Part 9: HTML to text and the company resolver
   ================================================================ -/

/-- Case-insensitive literal comparison at the head (both sides folded
through the lower-case table, the fold Python re.I performs here). -/
def startsCI : List Char → List Char → Bool
  | [], _ => true
  | _ :: _, [] => false
  | p :: ps, c :: cs => pyLower p = pyLower c && startsCI ps cs

/-- Case-insensitive literal search anywhere in the text. -/
def containsCI (pat : List Char) : List Char → Bool
  | [] => pat.isEmpty
  | c :: cs => startsCI pat (c :: cs) || containsCI pat cs

/-- Split at the first case-insensitive occurrence of the pattern: the
text before it and the text after it. -/
def splitAtCI (pat : List Char) : List Char → Option (List Char × List Char)
  | [] => none
  | c :: cs =>
    if startsCI pat (c :: cs) then some ([], (c :: cs).drop pat.length)
    else
      match splitAtCI pat cs with
      | some (pre, suf) => some (c :: pre, suf)
      | none => none

/-- The entity table fragment of html.unescape exercised by this
development (the named entities that occur in the scraped pages). -/
def entPairs : List (List Char × Char) :=
  [(toL "amp;", '&'), (toL "lt;", '<'), (toL "gt;", '>'),
   (toL "quot;", '"'), (toL "#39;", '\''), (toL "nbsp;", '\u00A0')]

/-- Entity lookup after an ampersand. -/
def entAt : List (List Char × Char) → List Char → Option (Char × List Char)
  | [], _ => none
  | (pat, ch) :: ps, rest =>
    if startsWithL pat rest then some (ch, rest.drop pat.length) else entAt ps rest

/-- One entity attempt at the current position. -/
def matchEnt : List Char → Option (Char × List Char)
  | '&' :: rest => entAt entPairs rest
  | _ => none

/-- Fuel-driven scan of html.unescape (fuel: the length of the text, one
unit per position, every step consumes at least one character). -/
def unescapeF : ℕ → List Char → List Char
  | 0, l => l
  | _ + 1, [] => []
  | fuel + 1, c :: cs =>
    match matchEnt (c :: cs) with
    | some (ch, rest) => ch :: unescapeF fuel rest
    | none => c :: unescapeF fuel cs

/-- Model of html.unescape over the modelled entity table. -/
def pyUnescape (l : List Char) : List Char := unescapeF l.length l

/-- re.sub removal of non-greedy open-to-close blocks (script and style):
find the opening literal, the next closing angle bracket, then the next
closing literal, replace the whole span by one space and continue after
it; when any of the three is missing nothing more can match. -/
def removeBlocksF (openT closeT : List Char) : ℕ → List Char → List Char
  | 0, l => l
  | fuel + 1, l =>
    match splitAtCI openT l with
    | none => l
    | some (pre, rest1) =>
      match splitAtCI ['>'] rest1 with
      | none => l
      | some (_, rest2) =>
        match splitAtCI closeT rest2 with
        | none => l
        | some (_, rest3) => pre ++ ' ' :: removeBlocksF openT closeT fuel rest3

/-- The break-tag regex (open bracket, br, optional whitespace, optional
slash, closing bracket) at the current position. -/
def matchBr (l : List Char) : Option (List Char) :=
  if startsCI (toL "<br") l then
    match (l.drop 3).dropWhile isPySpace with
    | '/' :: '>' :: rest => some rest
    | '>' :: rest => some rest
    | _ => none
  else none

/-- The closing-paragraph regex at the current position. -/
def matchPClose (l : List Char) : Option (List Char) :=
  if startsCI (toL "</p") l then
    match (l.drop 3).dropWhile isPySpace with
    | '>' :: rest => some rest
    | _ => none
  else none

/-- A whole remaining tag (open bracket, one or more non-bracket
characters, closing bracket) at the current position. -/
def matchTag : List Char → Option (List Char)
  | '<' :: rest =>
    if (rest.takeWhile (fun c => c ≠ '>')).isEmpty then none
    else
      match rest.drop (rest.takeWhile (fun c => c ≠ '>')).length with
      | '>' :: r => some r
      | _ => none
  | _ => none

/-- Fuel-driven left-to-right replacement scan: each position either
starts a match (replaced by the given character) or passes through. -/
def scanRepl (step : List Char → Option (List Char)) (out : Char) : ℕ → List Char → List Char
  | 0, l => l
  | _ + 1, [] => []
  | fuel + 1, c :: cs =>
    match step (c :: cs) with
    | some rest => out :: scanRepl step out fuel rest
    | none => c :: scanRepl step out fuel cs

/-- Horizontal-whitespace runs collapse to one space (the newline is kept). -/
def collapseHWSAux : Bool → List Char → List Char
  | _, [] => []
  | prev, c :: rest =>
    if isHWS c then
      if prev then collapseHWSAux true rest else ' ' :: collapseHWSAux true rest
    else c :: collapseHWSAux false rest

/-- The blank-line regex (newline, any whitespace, one or more newlines)
collapses, at each matching position, the span from the newline through
the last newline of the following whitespace run into one newline;
whitespace after that last newline stays. -/
def collapseNLF : ℕ → List Char → List Char
  | 0, l => l
  | _ + 1, [] => []
  | fuel + 1, c :: cs =>
    if c = '\n' then
      if (cs.takeWhile isPySpace).contains '\n' then
        '\n' :: collapseNLF fuel
          (((cs.takeWhile isPySpace).reverse.takeWhile (fun d => d ≠ '\n')).reverse ++
            cs.drop (cs.takeWhile isPySpace).length)
      else c :: collapseNLF fuel cs
    else c :: collapseNLF fuel cs

/-- Model of the function underscore-html-to-text (identical in jobscli2.py
and tgambientes.py): unescape entities, drop script and style blocks,
turn break and closing-paragraph tags into newlines, strip the remaining
tags to spaces, collapse horizontal whitespace runs to one space and
blank-line runs to one newline, and strip the ends. -/
def htmlToText (html : List Char) : List Char :=
  let h0 := pyUnescape html
  let h1 := removeBlocksF (toL "<script") (toL "</script>") h0.length h0
  let h2 := removeBlocksF (toL "<style") (toL "</style>") h1.length h1
  let h3 := scanRepl matchBr '\n' h2.length h2
  let h4 := scanRepl matchPClose '\n' h3.length h3
  let h5 := scanRepl matchTag ' ' h4.length h4
  let h6 := collapseHWSAux false h5
  pyStrip (collapseNLF h6.length h6)

/-- Slug characters of the profile-link pattern (lower-case letters,
digits, hyphen). -/
def slugChar (c : Char) : Bool := ('a' ≤ c && c ≤ 'z') || isDigitB c || c = '-'

/-- The same class under re.I (upper-case letters match too). -/
def slugCharCI (c : Char) : Bool := slugChar c || ('A' ≤ c && c ≤ 'Z')

/-- The profile-link pattern tried at one position: the literal
href-quote-slash-companies-slash (case-insensitively), then a non-empty
slug run, then the closing quote; yields the slug with its original case
and the text after the closing quote. -/
def slugAt (l : List Char) : Option (List Char × List Char) :=
  if startsCI (toL "href=\"/companies/") l then
    let after := l.drop 17
    let run := after.takeWhile slugCharCI
    if run.isEmpty then none
    else
      match after.drop run.length with
      | '"' :: rest => some (run, rest)
      | _ => none
  else none

/-- finditer of the profile-link pattern: scanning resumes after each full
match, and a position with no match advances by one character. -/
def slugsF : ℕ → List Char → List (List Char)
  | 0, _ => []
  | _ + 1, [] => []
  | fuel + 1, c :: cs =>
    match slugAt (c :: cs) with
    | some (run, rest) => run :: slugsF fuel rest
    | none => slugsF fuel cs

/-- The slugs the resolver skips as obvious non-company pages. -/
def excludedSlugs : List (List Char) :=
  [toL "ranking", toL "awards", toL "jobs", toL "remote-companies"]

/-- Order-preserving deduplication by the slug itself. -/
def dedupKeepOrder (seen : List (List Char)) : List (List Char) → List (List Char)
  | [] => []
  | x :: rest =>
    if seen.contains x then dedupKeepOrder seen rest
    else x :: dedupKeepOrder (x :: seen) rest

/-- Model of the inner helper extract-pairs of the resolver: profile-link
slugs with the non-company pages skipped, deduplicated keeping order. -/
def extract_pairs (html : List Char) : List (List Char) :=
  dedupKeepOrder [] ((slugsF html.length html).filter (fun slug => !excludedSlugs.contains slug))

/-- The normalized company name with spaces turned into hyphens. -/
def hyphenName (name : List Char) : List Char :=
  (pyNorm name).map (fun c => if c = ' ' then '-' else c)

/-- The punctuation-stripped slug guess built from the normalized name. -/
def guessSlug (name : List Char) : List Char := (hyphenName name).filter slugChar

/-- The exact guessed-slug link check: a non-empty guess whose profile
link occurs (case-insensitively) in the raw page. -/
def guessCheck (html guess : List Char) : Option (List Char) :=
  if !guess.isEmpty && containsCI (toL "href=\"/companies/" ++ guess ++ ['"']) html
  then some guess else none

/-- First scanned slug that is a substring of the hyphenated name. -/
def scanSubCheck (html hyph : List Char) : Option (List Char) :=
  (extract_pairs html).find? (fun slug => !slug.isEmpty && containsSub slug hyph)

/-- First scanned slug that matches the hyphenated name at word
boundaries. -/
def scanWBCheck (html hyph : List Char) : Option (List Char) :=
  (extract_pairs html).find? (fun slug =>
    !slug.isEmpty && findallWB slug hyph.length none hyph != 0)

/-- The curated-ranking attempt of the resolver: on a fetched page, the
substring-scan is tried only under the name-appears-in-page-text gate,
and the guessed-slug link is then tried unconditionally; a failed fetch
(none) is the swallowed exception. -/
def rankingAttempt (target hyph guess : List Char) : Option String → Option (List Char)
  | none => none
  | some html =>
    match (if containsSub target (pyNorm (htmlToText (toL html)))
           then scanSubCheck (toL html) hyph else none) with
    | some s => some s
    | none => guessCheck (toL html) guess

/-- One fallback directory page of the resolver: everything sits under the
name-appears-in-page-text gate, and the three tiers run in order (exact
guessed link, slug substring of the name, slug at word boundaries). -/
def pageAttempt (target hyph guess : List Char) : Option String → Option (List Char)
  | none => none
  | some html =>
    if containsSub target (pyNorm (htmlToText (toL html))) then
      match guessCheck (toL html) guess with
      | some s => some s
      | none =>
        match scanSubCheck (toL html) hyph with
        | some s => some s
        | none => scanWBCheck (toL html) hyph
    else none

/-- The paginated fallback loop from the given page number with the given
remaining budget, returning on first success. -/
def fallbackScan (target hyph guess : List Char) (pages : ℕ → Option String) :
    ℕ → ℕ → Option (List Char)
  | _, 0 => none
  | p, r + 1 =>
    match pageAttempt target hyph guess (pages p) with
    | some s => some s
    | none => fallbackScan target hyph guess pages (p + 1) r

/-- Model of the function underscore-find-teamlyzer-company-slug of
jobscli2.py and tgambientes.py, with the two fetches passed in: the
curated ranking page and the directory pages (none models a fetch or
parse failure, which the code catches). An empty normalized name returns
none at once; then the ranking attempt; then the fallback pages 1 up to
the budget; none when everything fails. -/
def find_teamlyzer_company_slug (name : List Char) (ranking : Option String)
    (pages : ℕ → Option String) (maxPages : ℕ) : Option (List Char) :=
  if (pyNorm name).isEmpty then none
  else
    match rankingAttempt (pyNorm name) (hyphenName name) (guessSlug name) ranking with
    | some s => some s
    | none => fallbackScan (pyNorm name) (hyphenName name) (guessSlug name) pages 1 maxPages

/- ================================================================
   Theorems
   ================================================================ -/

/-- A successful association-list lookup comes from a binding of the list. -/
theorem alookup_mem {α β : Type} [DecidableEq α] {l : List (α × β)} {k : α} {v : β}
    (h : alookup k l = some v) : (k, v) ∈ l := by
  induction l with
  | nil => simp [alookup] at h
  | cons p rest ih =>
    obtain ⟨k', v'⟩ := p
    by_cases hk : k = k'
    · subst hk
      simp [alookup] at h
      simp [h]
    · simp [alookup, hk] at h
      exact List.mem_cons_of_mem _ (ih h)

/-- Every value of the lower-case table is a fixed point of the tables:
not itself a key of the lower table, and its NFKD decomposition consists
only of characters (ignoring combining marks and whitespace) that are
keys of neither table. Checked by computation over the finite tables. -/
theorem lowerPairs_stable : ∀ p ∈ lowerPairs, alookup p.2 lowerPairs = none ∧
    (∀ c ∈ nfkdChar p.2, isCombining c = false → isPySpace c = false →
      alookup c lowerPairs = none ∧ alookup c nfkdPairs = none) := by decide

/-- Every non-combining non-whitespace character of an NFKD decomposition
in the table is a key of neither table. Checked by computation. -/
theorem nfkdPairs_stable : ∀ p ∈ nfkdPairs, ∀ c ∈ p.2,
    isCombining c = false → isPySpace c = false →
    alookup c lowerPairs = none ∧ alookup c nfkdPairs = none := by decide

/-- Characters produced by lower-casing followed by NFKD decomposition are,
once combining marks and whitespace are set aside, fixed points of both
lower-casing and decomposition. -/
theorem nfkd_of_lower_stable (d c : Char) (hc : c ∈ nfkdChar (pyLower d))
    (hcomb : isCombining c = false) (hsp : isPySpace c = false) :
    pyLower c = c ∧ nfkdChar c = [c] := by
  rcases h1 : alookup d lowerPairs with _ | v
  · rcases h2 : alookup d nfkdPairs with _ | ds
    · have hd : pyLower d = d := by simp [pyLower, h1]
      rw [hd] at hc
      have hc' : nfkdChar d = [d] := by simp [nfkdChar, h2]
      rw [hc'] at hc
      simp at hc
      subst hc
      exact ⟨hd, hc'⟩
    · have hd : pyLower d = d := by simp [pyLower, h1]
      rw [hd] at hc
      have hmem : (d, ds) ∈ nfkdPairs := alookup_mem h2
      have hc' : nfkdChar d = ds := by simp [nfkdChar, h2]
      rw [hc'] at hc
      have := nfkdPairs_stable (d, ds) hmem c hc hcomb hsp
      exact ⟨by simp [pyLower, this.1], by simp [nfkdChar, this.2]⟩
  · have hd : pyLower d = v := by simp [pyLower, h1]
    rw [hd] at hc
    have hmem : (d, v) ∈ lowerPairs := alookup_mem h1
    have := (lowerPairs_stable (d, v) hmem).2 c hc hcomb hsp
    exact ⟨by simp [pyLower, this.1], by simp [nfkdChar, this.2]⟩

/-- Members of the whitespace-collapsed list are the plain space or
non-whitespace members of the input. -/
theorem mem_collapseAux {c : Char} : ∀ {b : Bool} {l : List Char},
    c ∈ collapseAux b l → c = ' ' ∨ (c ∈ l ∧ isPySpace c = false) := by
  intro b l
  induction l generalizing b with
  | nil => intro h; simp [collapseAux] at h
  | cons d rest ih =>
    intro h
    by_cases hd : isPySpace d
    · rw [show collapseAux b (d :: rest) =
          (if b then collapseAux true rest else ' ' :: collapseAux true rest) by
          simp [collapseAux, hd]] at h
      rcases b with _ | _
      · simp at h
        rcases h with h | h
        · exact Or.inl h
        · rcases ih h with h' | h'
          · exact Or.inl h'
          · exact Or.inr ⟨List.mem_cons_of_mem _ h'.1, h'.2⟩
      · simp at h
        rcases ih h with h' | h'
        · exact Or.inl h'
        · exact Or.inr ⟨List.mem_cons_of_mem _ h'.1, h'.2⟩
    · rw [show collapseAux b (d :: rest) = d :: collapseAux false rest by
          simp [collapseAux, hd]] at h
      rcases List.mem_cons.mp h with h' | h'
      · subst h'
        exact Or.inr ⟨List.mem_cons_self _ _, by simpa using hd⟩
      · rcases ih h' with h'' | h''
        · exact Or.inl h''
        · exact Or.inr ⟨List.mem_cons_of_mem _ h''.1, h''.2⟩

/-- Dropping trailing whitespace keeps a sublist of the members. -/
theorem mem_dropTrailingWS {c : Char} : ∀ {l : List Char}, c ∈ dropTrailingWS l → c ∈ l := by
  intro l
  induction l with
  | nil => intro h; simp [dropTrailingWS] at h
  | cons d rest ih =>
    intro h
    rw [dropTrailingWS] at h
    rcases hr : dropTrailingWS rest with _ | ⟨e, r⟩
    · rw [hr] at h
      by_cases hd : isPySpace d
      · simp [hd] at h
      · simp [hd] at h
        simp [h]
    · rw [hr] at h
      rcases List.mem_cons.mp h with h' | h'
      · simp [h']
      · exact List.mem_cons_of_mem _ (ih (by rw [hr]; exact h'))

/-- Members of the stripped list are members of the list. -/
theorem mem_pyStrip {c : Char} {l : List Char} (h : c ∈ pyStrip l) : c ∈ l :=
  (List.dropWhile_sublist isPySpace).mem (mem_dropTrailingWS h)

/-- Members of the concatenated decomposition come from decomposing a member. -/
theorem mem_expandNFKD {c : Char} : ∀ {l : List Char},
    c ∈ expandNFKD l → ∃ d ∈ l, c ∈ nfkdChar d := by
  intro l
  induction l with
  | nil => intro h; simp [expandNFKD] at h
  | cons d rest ih =>
    intro h
    rw [expandNFKD] at h
    rcases List.mem_append.mp h with h' | h'
    · exact ⟨d, List.mem_cons_self _ _, h'⟩
    · obtain ⟨e, he, hc⟩ := ih h'
      exact ⟨e, List.mem_cons_of_mem _ he, hc⟩

/-- After a run has been entered, the collapser never emits a leading space. -/
theorem headNotSpace_collapseAux : ∀ l : List Char, headNotSpaceB (collapseAux true l) = true := by
  intro l
  induction l with
  | nil => rfl
  | cons c rest ih =>
    by_cases hc : isPySpace c
    · simpa [collapseAux, hc] using ih
    · simp [collapseAux, hc, headNotSpaceB]

/-- The output of the whitespace collapser is whitespace well-formed. -/
theorem wsOK_collapseAux : ∀ (b : Bool) (l : List Char), wsOK (collapseAux b l) = true := by
  intro b l
  induction l generalizing b with
  | nil => rfl
  | cons c rest ih =>
    by_cases hc : isPySpace c
    · rcases b with _ | _
      · have : collapseAux false (c :: rest) = ' ' :: collapseAux true rest := by
          simp [collapseAux, hc]
        rw [this, wsOK]
        simp [headNotSpace_collapseAux, ih true]
      · simpa [collapseAux, hc] using ih true
    · have : collapseAux b (c :: rest) = c :: collapseAux false rest := by
        simp [collapseAux, hc]
      rw [this, wsOK]
      simp [hc, ih false]

/-- Whitespace well-formedness passes to the tail. -/
theorem wsOK_tail {c : Char} {l : List Char} (h : wsOK (c :: l) = true) : wsOK l = true := by
  rw [wsOK] at h
  exact (Bool.and_eq_true_iff.mp h).2

/-- Dropping a whitespace-well-formed list's first elements keeps it well formed. -/
theorem wsOK_dropWhile (p : Char → Bool) : ∀ l : List Char,
    wsOK l = true → wsOK (l.dropWhile p) = true := by
  intro l
  induction l with
  | nil => intro h; exact h
  | cons c rest ih =>
    intro h
    by_cases hc : p c
    · rw [List.dropWhile_cons_of_pos hc]
      exact ih (wsOK_tail h)
    · rwa [List.dropWhile_cons_of_neg hc]

/-- Dropping trailing whitespace yields the empty list or keeps the head. -/
theorem dropTrailingWS_cons (c : Char) (rest : List Char) :
    dropTrailingWS (c :: rest) = [] ∨ ∃ r, dropTrailingWS (c :: rest) = c :: r := by
  rw [dropTrailingWS]
  rcases dropTrailingWS rest with _ | ⟨e, r⟩
  · by_cases hc : isPySpace c
    · simp [hc]
    · simp [hc]
  · simp

/-- Dropping trailing whitespace preserves whitespace well-formedness. -/
theorem wsOK_dropTrailingWS : ∀ l : List Char, wsOK l = true → wsOK (dropTrailingWS l) = true := by
  intro l
  induction l with
  | nil => intro h; exact h
  | cons c rest ih =>
    intro h
    have hrest := ih (wsOK_tail h)
    rw [dropTrailingWS]
    rcases hr : dropTrailingWS rest with _ | ⟨e, r⟩
    · by_cases hc : isPySpace c
      · simp [hc, wsOK]
      · simp [hc, wsOK, headNotSpaceB]
    · rw [wsOK]
      rw [hr] at hrest
      refine Bool.and_eq_true_iff.mpr ⟨?_, hrest⟩
      by_cases hc : isPySpace c
      · rw [wsOK] at h
        have h1 := (Bool.and_eq_true_iff.mp h).1
        rw [if_pos hc] at h1
        have hce := (Bool.and_eq_true_iff.mp h1).1
        have hhead := (Bool.and_eq_true_iff.mp h1).2
        rw [if_pos hc]
        refine Bool.and_eq_true_iff.mpr ⟨hce, ?_⟩
        rcases rest with _ | ⟨d, rs⟩
        · simp [dropTrailingWS] at hr
        · rcases dropTrailingWS_cons d rs with hnil | ⟨r', hr'⟩
          · rw [hnil] at hr; exact absurd hr (by simp)
          · rw [hr'] at hr
            have : e = d := (List.cons_eq_cons.mp hr).1.symm
            subst this
            simpa [headNotSpaceB] using hhead
      · simp [hc]

/-- On a whitespace-well-formed list, collapsing is the identity; if the list
additionally has no leading whitespace, so is collapsing in entered state. -/
theorem collapseAux_id : ∀ l : List Char, wsOK l = true →
    (collapseAux false l = l ∧ (headNotSpaceB l = true → collapseAux true l = l)) := by
  intro l
  induction l with
  | nil => intro h; exact ⟨rfl, fun _ => rfl⟩
  | cons c rest ih =>
    intro h
    obtain ⟨ih1, ih2⟩ := ih (wsOK_tail h)
    by_cases hc : isPySpace c
    · rw [wsOK] at h
      have h1 := (Bool.and_eq_true_iff.mp h).1
      rw [if_pos hc] at h1
      have hce : c = ' ' := by simpa using (Bool.and_eq_true_iff.mp h1).1
      have hhead := (Bool.and_eq_true_iff.mp h1).2
      constructor
      · have : collapseAux false (c :: rest) = ' ' :: collapseAux true rest := by
          simp [collapseAux, hc]
        rw [this, ih2 hhead, hce]
      · intro hh
        rw [headNotSpaceB] at hh
        simp [hc] at hh
    · constructor
      · simp [collapseAux, hc, ih1]
      · intro _
        simp [collapseAux, hc, ih1]

/-- Mapping a function that fixes every member is the identity. -/
theorem map_id_on {α : Type} {f : α → α} : ∀ {l : List α}, (∀ c ∈ l, f c = c) → l.map f = l := by
  intro l
  induction l with
  | nil => intro _; rfl
  | cons c rest ih =>
    intro h
    rw [List.map_cons, h c (List.mem_cons_self _ _), ih (fun d hd => h d (List.mem_cons_of_mem _ hd))]

/-- Decomposition is the identity on lists of decomposition-fixed characters. -/
theorem expandNFKD_id : ∀ {l : List Char}, (∀ c ∈ l, nfkdChar c = [c]) → expandNFKD l = l := by
  intro l
  induction l with
  | nil => intro _; rfl
  | cons c rest ih =>
    intro h
    rw [expandNFKD, h c (List.mem_cons_self _ _),
      ih (fun d hd => h d (List.mem_cons_of_mem _ hd))]
    rfl

/-- Filtering by a predicate every member satisfies is the identity. -/
theorem filter_id_on {α : Type} {p : α → Bool} : ∀ {l : List α},
    (∀ c ∈ l, p c = true) → l.filter p = l := by
  intro l
  induction l with
  | nil => intro _; rfl
  | cons c rest ih =>
    intro h
    rw [List.filter_cons_of_pos (h c (List.mem_cons_self _ _)),
      ih (fun d hd => h d (List.mem_cons_of_mem _ hd))]

/-- Every member of a normalized list is a fixed point of the whole pipeline:
lower-casing and decomposition fix it, it is not a combining mark, and if it
is whitespace it is the plain space. -/
theorem pyNorm_members {c : Char} {l : List Char} (h : c ∈ pyNorm l) :
    pyLower c = c ∧ nfkdChar c = [c] ∧ isCombining c = false ∧
      (isPySpace c = true → c = ' ') := by
  rcases mem_collapseAux h with h' | ⟨h', hsp⟩
  · subst h'
    refine ⟨by decide, by decide, by decide, fun _ => rfl⟩
  · have hfilter := List.mem_filter.mp h'
    have hcomb : isCombining c = false := by simpa using hfilter.2
    obtain ⟨d, hd, hc⟩ := mem_expandNFKD hfilter.1
    obtain ⟨d0, _, hd0⟩ := List.mem_map.mp hd
    subst hd0
    obtain ⟨hl, hn⟩ := nfkd_of_lower_stable d0 c hc hcomb hsp
    exact ⟨hl, hn, hcomb, fun hspc => by rw [hspc] at hsp; exact absurd hsp (by simp)⟩

/-- Applying the normalizer twice is stripping once more: the second pass
only removes the leading or trailing space that an NFKD decomposition of a
spacing accent can leave behind. -/
theorem pyNorm_pyNorm (l : List Char) : pyNorm (pyNorm l) = pyStrip (pyNorm l) := by
  have hmem : ∀ c ∈ pyStrip (pyNorm l), pyLower c = c ∧ nfkdChar c = [c] ∧
      isCombining c = false := by
    intro c hc
    obtain ⟨h1, h2, h3, _⟩ := pyNorm_members (mem_pyStrip hc)
    exact ⟨h1, h2, h3⟩
  have hmap : (pyStrip (pyNorm l)).map pyLower = pyStrip (pyNorm l) :=
    map_id_on (fun c hc => (hmem c hc).1)
  have hexp : expandNFKD (pyStrip (pyNorm l)) = pyStrip (pyNorm l) :=
    expandNFKD_id (fun c hc => (hmem c hc).2.1)
  have hfil : (pyStrip (pyNorm l)).filter (fun c => !isCombining c) = pyStrip (pyNorm l) :=
    filter_id_on (fun c hc => by simp [(hmem c hc).2.2])
  have hws : wsOK (pyStrip (pyNorm l)) = true := by
    have h0 : wsOK (pyNorm l) = true := wsOK_collapseAux false _
    exact wsOK_dropTrailingWS _ (wsOK_dropWhile _ _ h0)
  have hcoll : collapseWS (pyStrip (pyNorm l)) = pyStrip (pyNorm l) :=
    (collapseAux_id _ hws).1
  show collapseWS (List.filter _ (expandNFKD ((pyStrip (pyNorm l)).map pyLower))) = _
  rw [hmap, hexp, hfil, hcoll]

/-- C3, counterexample: the normalizer is not idempotent. On the input a
followed by the spacing acute accent U+00B4, NFKD leaves a trailing space
(U+00B4 decomposes to space plus combining acute, the mark is dropped),
which only the second pass strips: norm of the input is the two characters
a space, norm of that is the single character a. -/
theorem pyNorm_idempotent_cex :
    pyNorm (pyNorm (toL "a´")) ≠ pyNorm (toL "a´") := by decide

/-- C3, amended: the normalizer is idempotent on every string whose
normalized form carries no leading or trailing whitespace (equivalently,
on every string whose normal form is already stripped; only the NFKD
decompositions of spacing accents such as U+00B4 can break this), and it
is insensitive to accent marks and case: Sao Paulo with and without the
tilde normalize identically. -/
theorem pyNorm_idempotent_amended :
    (∀ l : List Char, pyStrip (pyNorm l) = pyNorm l → pyNorm (pyNorm l) = pyNorm l) ∧
    pyNorm (toL "São Paulo") = pyNorm (toL "sao paulo") := by
  refine ⟨fun l h => ?_, by decide⟩
  rw [pyNorm_pyNorm, h]

/-- Witness for the amended C3 theorem at a concrete input. -/
theorem pyNorm_idempotent_amended_witness :
    pyStrip (pyNorm (toL " São  Paulo ")) = pyNorm (toL " São  Paulo ") ∧
    pyNorm (pyNorm (toL " São  Paulo ")) = pyNorm (toL " São  Paulo ") :=
  ⟨by decide, pyNorm_idempotent_amended.1 (toL " São  Paulo ") (by decide)⟩

/-- The key loop of the response normalizer returns the first array value
found under the candidate keys, in candidate order. -/
theorem firstArrAtKeys_eq_filterMap (fs : List (String × JVal)) : ∀ ks : List String,
    firstArrAtKeys ks fs = (ks.filterMap (fun k =>
      match alookup k fs with
      | some (.arr l) => some l
      | _ => none)).head? := by
  intro ks
  induction ks with
  | nil => rfl
  | cons k rest ih =>
    rw [firstArrAtKeys, List.filterMap_cons]
    rcases h : alookup k fs with _ | v
    · simpa [h] using ih
    · rcases v with _ | _ | _ | _ | l | _ <;> simpa [h] using ih

/-- The fallback loop of the response normalizer returns the first
array-valued member, in member order. -/
theorem firstArrValue_eq_filterMap : ∀ fs : List (String × JVal),
    firstArrValue fs = ((fs.map Prod.snd).filterMap (fun v =>
      match v with
      | .arr l => some l
      | _ => none)).head? := by
  intro fs
  induction fs with
  | nil => rfl
  | cons p rest ih =>
    obtain ⟨k, v⟩ := p
    rcases v with _ | _ | _ | _ | l | _ <;> simpa [firstArrValue] using ih

/-- C1: the response normalizer returns the payload itself on a bare array,
the value of the first of the keys jobs, results, data, items holding an
array on an object, otherwise the first array-valued member in member
order, and the empty sequence when nothing matches; being a total function
of the payload, it raises no error. -/
theorem extract_jobs_from_response_correct :
    ∀ d : JVal, extract_jobs_from_response d = extractJobsSpec d := by
  intro d
  rcases d with _ | _ | _ | _ | l | fs
  · rfl
  · rfl
  · rfl
  · rfl
  · rfl
  · show (match firstArrAtKeys jobsKeys fs with
      | some l => l
      | none =>
        match firstArrValue fs with
        | some l => l
        | none => []) = _
    rw [firstArrAtKeys_eq_filterMap fs jobsKeys, firstArrValue_eq_filterMap fs]
    rfl

/-- The pick helper returns the empty string when every candidate key is absent. -/
theorem pick_absent : ∀ (keys : List String) (job : List (String × JVal)),
    (∀ k ∈ keys, alookup k job = none) → pick job keys = .str "" := by
  intro keys
  induction keys with
  | nil => intro job _; rfl
  | cons k ks ih =>
    intro job h
    rw [pick, h k (List.mem_cons_self _ _)]
    exact ih job (fun d hd => h d (List.mem_cons_of_mem _ hd))

/-- The unwrapping field picker returns the empty string when every
candidate key is absent. -/
theorem pick_job_field_absent : ∀ (keys : List String) (job : List (String × JVal)),
    (∀ k ∈ keys, alookup k job = none) → pick_job_field job keys = [] := by
  intro keys
  induction keys with
  | nil => intro job _; rfl
  | cons k ks ih =>
    intro job h
    rw [pick_job_field, h k (List.mem_cons_self _ _)]
    exact ih job (fun d hd => h d (List.mem_cons_of_mem _ hd))

/-- The flat-key loop of the zone and type extractors finds nothing when
every candidate key is absent. -/
theorem firstStrField_absent : ∀ (keys : List String) (job : List (String × JVal)),
    (∀ k ∈ keys, alookup k job = none) → firstStrField job keys = none := by
  intro keys
  induction keys with
  | nil => intro job _; rfl
  | cons k ks ih =>
    intro job h
    rw [firstStrField, h k (List.mem_cons_self _ _)]
    exact ih job (fun d hd => h d (List.mem_cons_of_mem _ hd))

/-- C7, counterexample: on the empty job object the CSV normalizer fills
the location field (localizacao) with the empty string, not Unknown, and
the CSV pick helper returns a nested company object as is instead of
unwrapping its name, so the claim fails as stated on the cited CSV
normalizer. -/
theorem field_extraction_cex :
    alookup "localizacao" (normalize_job_for_csv []) = some [] ∧
    toL "Unknown" ≠ ([] : List Char) ∧
    pick [("location", JVal.obj [("name", JVal.str "Porto")])] ["location", "localidade", "city"]
      = JVal.obj [("name", JVal.str "Porto")] :=
  ⟨by decide, by decide, rfl⟩

/-- C7, amended: first non-empty candidate wins everywhere, but the
defaults and the unwrapping differ by extractor. The CSV pick helper
returns the first truthy candidate value as is (no unwrapping) and
defaults every field, the location field included, to the empty string;
the unwrapping picker returns the first non-blank string candidate,
looking inside one nested object at the name, title, nome sub-keys, each
tested separately for being a non-blank string (so a non-string or blank
name does not block a later title), and defaults to the empty string;
only the statistics zone and type extractors default to Unknown when
every candidate is absent. -/
theorem field_extraction_amended :
    (∀ (job : List (String × JVal)) (keys : List String),
      (∀ k ∈ keys, alookup k job = none) → pick job keys = .str "") ∧
    (∀ (job : List (String × JVal)) (k : String) (ks : List String) (v : JVal),
      alookup k job = some v → jvTruthy v = true → pick job (k :: ks) = v) ∧
    (∀ (job : List (String × JVal)) (keys : List String),
      (∀ k ∈ keys, alookup k job = none) → pick_job_field job keys = []) ∧
    (∀ job : List (String × JVal), alookup "locations" job = none →
      (∀ k ∈ zoneKeys, alookup k job = none) → extract_zone_from_job job = toL "Unknown") ∧
    (∀ job : List (String × JVal), (∀ k ∈ typeKeys, alookup k job = none) →
      alookup "types" job = none → extract_type_from_job job = toL "Unknown") ∧
    pick_job_field [("company", JVal.obj [("name", JVal.str " Porto ")])] ["company"]
      = toL "Porto" ∧
    pick_job_field [("company", JVal.obj [("name", JVal.num 1), ("title", JVal.str " X ")])]
      ["company"] = toL "X" ∧
    pick_job_field [("company", JVal.obj [("name", JVal.str " "), ("title", JVal.str "X")])]
      ["company"] = toL "X" := by
  refine ⟨fun job keys h => pick_absent keys job h, ?_, 
    fun job keys h => pick_job_field_absent keys job h, ?_, ?_, by decide, by decide, by decide⟩
  · intro job k ks v hv ht
    rw [pick, hv]
    simp [ht]
  · intro job hloc h
    rw [extract_zone_from_job, hloc, firstStrField_absent zoneKeys job h]
  · intro job h htypes
    rw [extract_type_from_job, firstStrField_absent typeKeys job h, htypes]

/-- Witness for the amended C7 theorem at concrete inputs. -/
theorem field_extraction_amended_witness :
    ((∀ k ∈ ["salary", "salario"], alookup k [("x", JVal.num 1)] = none) ∧
      pick [("x", JVal.num 1)] ["salary", "salario"] = JVal.str "") ∧
    (alookup "locations" ([("x", JVal.num 1)] : List (String × JVal)) = none ∧
      extract_zone_from_job [("x", JVal.num 1)] = toL "Unknown") ∧
    extract_type_from_job [("x", JVal.num 1)] = toL "Unknown" := by
  have habs : ∀ ks : List String, "x" ∉ ks → ∀ k ∈ ks, alookup k [("x", JVal.num 1)] = none := by
    intro ks hx k hk
    have hne : k ≠ "x" := fun h => hx (h ▸ hk)
    show (if k = "x" then some (JVal.num 1) else none) = none
    simp [hne]
  refine ⟨⟨habs _ (by decide), field_extraction_amended.1 _ _ (habs _ (by decide))⟩,
    ⟨rfl, field_extraction_amended.2.2.2.1 _ rfl (habs _ (by decide))⟩,
    field_extraction_amended.2.2.2.2.1 _ (habs _ (by decide)) rfl⟩

/-- Looking up a key other than the updated one passes through one update
step of the overwrite branch. -/
theorem alookup_map_update {k' k : String} {v : JVal} (hne : k' ≠ k) :
    ∀ fs : List (String × JVal),
      alookup k' (fs.map (fun p => if p.1 == k then (k, v) else p)) = alookup k' fs := by
  intro fs
  induction fs with
  | nil => rfl
  | cons p rest ih =>
    obtain ⟨k0, v0⟩ := p
    by_cases h0 : k0 = k
    · subst h0
      have : ((k0, v0).1 == k0) = true := by simp
      rw [List.map_cons, if_pos this]
      show (if k' = k0 then some v else alookup k' _) = if k' = k0 then some v0 else alookup k' rest
      rw [if_neg hne, if_neg hne, ih]
    · have : ((k0, v0).1 == k) = false := by simpa using h0
      rw [List.map_cons, if_neg (by simpa using h0)]
      show (if k' = k0 then some v0 else _) = if k' = k0 then some v0 else alookup k' rest
      by_cases hk : k' = k0
      · simp [hk]
      · rw [if_neg hk, if_neg hk, ih]

/-- Looking up a key other than the appended one ignores the appended pair. -/
theorem alookup_append_single {k' k : String} {v : JVal} (hne : k' ≠ k) :
    ∀ fs : List (String × JVal), alookup k' (fs ++ [(k, v)]) = alookup k' fs := by
  intro fs
  induction fs with
  | nil => show (if k' = k then _ else _) = _; simp [alookup, hne]
  | cons p rest ih =>
    obtain ⟨k0, v0⟩ := p
    show (if k' = k0 then some v0 else _) = if k' = k0 then some v0 else _
    by_cases hk : k' = k0
    · simp [hk]
    · rw [if_neg hk, if_neg hk]; exact ih

/-- One update step leaves lookups of every other key unchanged. -/
theorem alookup_updateOne_other {k' k : String} {v : JVal} (hne : k' ≠ k)
    (fs : List (String × JVal)) : alookup k' (updateOne fs k v) = alookup k' fs := by
  rw [updateOne]
  by_cases h : fs.any (fun p => p.1 == k)
  · rw [if_pos h]; exact alookup_map_update hne fs
  · rw [if_neg h]; exact alookup_append_single hne fs

/-- A key absent from every binding looks up to nothing. -/
theorem alookup_eq_none_of_all_ne {k : String} : ∀ {fs : List (String × JVal)},
    (∀ p ∈ fs, (p.1 == k) = false) → alookup k fs = none := by
  intro fs
  induction fs with
  | nil => intro _; rfl
  | cons p rest ih =>
    intro h
    obtain ⟨k0, v0⟩ := p
    have h0 : k ≠ k0 := by
      have := h (k0, v0) (List.mem_cons_self _ _)
      simp at this
      exact fun hk => this hk.symm
    show (if k = k0 then some v0 else _) = none
    rw [if_neg h0]
    exact ih (fun q hq => h q (List.mem_cons_of_mem _ hq))

/-- In the overwrite branch, the updated key looks up to the new value. -/
theorem alookup_map_update_same {k : String} {v : JVal} : ∀ fs : List (String × JVal),
    fs.any (fun p => p.1 == k) = true →
    alookup k (fs.map (fun p => if p.1 == k then (k, v) else p)) = some v := by
  intro fs
  induction fs with
  | nil => intro h; cases h
  | cons p rest ih =>
    intro h
    obtain ⟨k0, v0⟩ := p
    by_cases h0 : k0 = k
    · have hb : ((k0, v0).1 == k) = true := by simp [h0]
      rw [List.map_cons, if_pos hb]
      show (if k = k then some v else _) = some v
      simp
    · rw [List.map_cons, if_neg (by simpa using h0)]
      show (if k = k0 then some v0 else _) = some v
      rw [if_neg (fun hk : k = k0 => h0 hk.symm)]
      refine ih ?_
      rw [List.any_cons] at h
      simpa [show ((k0, v0).1 == k) = false by simpa using h0] using h

/-- When the key is absent, appending its pair makes it look up to the value. -/
theorem alookup_append_last {k : String} {v : JVal} : ∀ fs : List (String × JVal),
    alookup k fs = none → alookup k (fs ++ [(k, v)]) = some v := by
  intro fs
  induction fs with
  | nil =>
    intro _
    show (if k = k then some v else _) = some v
    simp
  | cons p rest ih =>
    intro h
    obtain ⟨k0, v0⟩ := p
    have hk0 : k ≠ k0 := by
      intro hk
      rw [show alookup k ((k0, v0) :: rest) = (if k = k0 then some v0 else alookup k rest) from rfl,
        if_pos hk] at h
      cases h
    rw [show alookup k ((k0, v0) :: rest) = (if k = k0 then some v0 else alookup k rest) from rfl,
      if_neg hk0] at h
    show (if k = k0 then some v0 else _) = some v
    rw [if_neg hk0]
    exact ih h

/-- One update step makes the updated key look up to the new value. -/
theorem alookup_updateOne_same (k : String) (v : JVal) (fs : List (String × JVal)) :
    alookup k (updateOne fs k v) = some v := by
  rw [updateOne]
  by_cases h : fs.any (fun p => p.1 == k)
  · rw [if_pos h]
    exact alookup_map_update_same fs h
  · rw [if_neg h]
    refine alookup_append_last fs (alookup_eq_none_of_all_ne (fun p hp => ?_))
    rcases hb : (p.1 == k) with _ | _
    · rfl
    · exact absurd (List.any_eq_true.mpr ⟨p, hp, hb⟩) h

/-- Updating by a dictionary leaves the lookups of keys outside it unchanged. -/
theorem alookup_dictUpdate_notin {k : String} : ∀ (upd fs : List (String × JVal)),
    k ∉ upd.map Prod.fst → alookup k (dictUpdate fs upd) = alookup k fs := by
  intro upd
  induction upd with
  | nil => intro fs _; rfl
  | cons kv rest ih =>
    intro fs h
    obtain ⟨k0, v0⟩ := kv
    have hne : k ≠ k0 := fun hk => h (by simp [hk])
    have hrest : k ∉ rest.map Prod.fst := fun hk => h (by simp; right; simpa using hk)
    show alookup k (dictUpdate (updateOne fs k0 v0) rest) = _
    rw [ih _ hrest, alookup_updateOne_other hne]

/-- Updating by a duplicate-free dictionary makes its keys look up to its
values. -/
theorem alookup_dictUpdate_in {k : String} {v : JVal} : ∀ (upd fs : List (String × JVal)),
    alookup k upd = some v → (upd.map Prod.fst).Nodup →
    alookup k (dictUpdate fs upd) = some v := by
  intro upd
  induction upd with
  | nil => intro fs h _; cases h
  | cons kv rest ih =>
    intro fs h hnd
    obtain ⟨k0, v0⟩ := kv
    rw [List.map_cons, List.nodup_cons] at hnd
    by_cases hk : k = k0
    · subst hk
      have hv : v = v0 := by
        rw [show alookup k ((k, v0) :: rest) = (if k = k then some v0 else alookup k rest) from rfl,
          if_pos rfl] at h
        exact (Option.some.injEq _ _ ▸ h).symm
      subst hv
      show alookup k (dictUpdate (updateOne fs k v) rest) = some v
      rw [alookup_dictUpdate_notin rest _ hnd.1, alookup_updateOne_same]
    · rw [show alookup k ((k0, v0) :: rest) = (if k = k0 then some v0 else alookup k rest) from rfl,
        if_neg hk] at h
      exact ih _ h hnd.2

/-- A key of a dictionary looks up to some value. -/
theorem alookup_isSome_of_mem_keys {k : String} : ∀ {fs : List (String × JVal)},
    k ∈ fs.map Prod.fst → ∃ v, alookup k fs = some v := by
  intro fs
  induction fs with
  | nil => intro h; cases h
  | cons p rest ih =>
    intro h
    obtain ⟨k0, v0⟩ := p
    by_cases hk : k = k0
    · exact ⟨v0, by show (if k = k0 then some v0 else _) = _; rw [if_pos hk]⟩
    · have : k ∈ rest.map Prod.fst := by
        rcases List.mem_cons.mp h with h' | h'
        · exact absurd h' hk
        · exact h'
      obtain ⟨v, hv⟩ := ih this
      exact ⟨v, by show (if k = k0 then some v0 else _) = _; rw [if_neg hk]; exact hv⟩

/-- C10: enrichment of a dict input returns a new dict in which every key
outside the four teamlyzer keys looks up to its value in the input, and
each of the four teamlyzer keys looks up to its value in the scrape
result; a non-dict input is returned wrapped as the data member of a
fresh dict. The embedding is pure, so the input is never mutated. -/
theorem enrich_job_with_teamlyzer_frame :
    (∀ (fs info : List (String × JVal)), info.map Prod.fst = teamKeys →
      enrich_job_with_teamlyzer (.obj fs) info = .obj (dictUpdate fs info) ∧
      (∀ k, k ∉ teamKeys → alookup k (dictUpdate fs info) = alookup k fs) ∧
      (∀ k, k ∈ teamKeys → alookup k (dictUpdate fs info) = alookup k info)) ∧
    (∀ (v : JVal) (info : List (String × JVal)), (∀ gs, v ≠ JVal.obj gs) →
      enrich_job_with_teamlyzer v info = .obj [("data", v)]) := by
  constructor
  · intro fs info hkeys
    refine ⟨rfl, fun k hk => ?_, fun k hk => ?_⟩
    · exact alookup_dictUpdate_notin info fs (by rw [hkeys]; exact hk)
    · have hmem : k ∈ info.map Prod.fst := by rw [hkeys]; exact hk
      obtain ⟨v, hv⟩ := alookup_isSome_of_mem_keys hmem
      have hnd : (info.map Prod.fst).Nodup := by rw [hkeys]; decide
      rw [alookup_dictUpdate_in info fs hv hnd, hv]
  · intro v info h
    rcases v with _ | _ | _ | _ | l | gs
    · rfl
    · rfl
    · rfl
    · rfl
    · rfl
    · exact absurd rfl (h gs)

/-- Witness for the C10 theorem at a concrete input: a job with a prior
title and a stale teamlyzer rating keeps the title and takes the fresh
rating. -/
theorem enrich_job_with_teamlyzer_frame_witness :
    (([("teamlyzer_rating", JVal.num 4), ("teamlyzer_description", JVal.null),
       ("teamlyzer_benefits", JVal.arr []), ("teamlyzer_salary", JVal.null)].map
        (fun p : String × JVal => p.1) = teamKeys) ∧
      (alookup "title" (dictUpdate [("title", JVal.str "Dev"), ("teamlyzer_rating", JVal.num 1)]
        [("teamlyzer_rating", JVal.num 4), ("teamlyzer_description", JVal.null),
         ("teamlyzer_benefits", JVal.arr []), ("teamlyzer_salary", JVal.null)]) =
       alookup "title" [("title", JVal.str "Dev"), ("teamlyzer_rating", JVal.num 1)])) ∧
    enrich_job_with_teamlyzer (JVal.str "x") [] = JVal.obj [("data", JVal.str "x")] := by
  refine ⟨⟨rfl, ?_⟩, ?_⟩
  · exact ((enrich_job_with_teamlyzer_frame.1
      [("title", JVal.str "Dev"), ("teamlyzer_rating", JVal.num 1)]
      [("teamlyzer_rating", JVal.num 4), ("teamlyzer_description", JVal.null),
       ("teamlyzer_benefits", JVal.arr []), ("teamlyzer_salary", JVal.null)]
      (by decide)).2.1 "title" (by decide))
  · exact enrich_job_with_teamlyzer_frame.2 (JVal.str "x") [] (fun gs h => by cases h)

/-- C6: the rating extractor parses the first occurrence of the rating
pattern as a decimal number (keeping the raw captured text only if the
numeric parse failed, which the parser here never does on the shapes the
pattern captures), and yields null when no occurrence exists; on a text
containing 3.8 slash 5 it yields the number 3.8, and on a text with no
such pattern it yields null. -/
theorem extractRating_correct :
    (∀ l : List Char, extractRating l =
      ((firstRatingMatch l).map parseRatingGroup).getD .nullR) ∧
    extractRating (toL "Rated 3.8/5 by employees") = .numR 38 ∧
    extractRating (toL "no rating on this page") = .nullR := by
  refine ⟨fun l => ?_, by decide, by decide⟩
  induction l with
  | nil => rfl
  | cons c rest ih =>
    rw [extractRating, firstRatingMatch, List.tails_cons, List.filterMap_cons]
    rcases h : matchRatingAt (c :: rest) with _ | g
    · rw [ih, firstRatingMatch]
    · rfl

/-- Members of an insertion are the new element or members of the list. -/
theorem mem_insertBy {α : Type} {lt : α → α → Bool} {x y : α} : ∀ {l : List α},
    y ∈ insertBy lt x l → y = x ∨ y ∈ l := by
  intro l
  induction l with
  | nil =>
    intro h
    rw [insertBy] at h
    exact Or.inl (by simpa using h)
  | cons z zs ih =>
    intro h
    rw [insertBy] at h
    by_cases hz : lt z x
    · rw [if_pos hz] at h
      rcases List.mem_cons.mp h with h' | h'
      · exact Or.inr (by simp [h'])
      · rcases ih h' with h'' | h''
        · exact Or.inl h''
        · exact Or.inr (List.mem_cons_of_mem _ h'')
    · rw [if_neg hz] at h
      rcases List.mem_cons.mp h with h' | h'
      · exact Or.inl h'
      · exact Or.inr h'

/-- Members of the sorted list are members of the input. -/
theorem mem_sortBy {α : Type} {lt : α → α → Bool} {y : α} : ∀ {l : List α},
    y ∈ sortBy lt l → y ∈ l := by
  intro l
  induction l with
  | nil => intro h; simp [sortBy] at h
  | cons z zs ih =>
    intro h
    rcases mem_insertBy h with h' | h'
    · simp [h']
    · exact List.mem_cons_of_mem _ (ih h')

/-- Inserting behind an element that must precede the new one keeps the
head sound, given asymmetry of the precedence test. -/
theorem headNotLt_insertBy {α : Type} {lt : α → α → Bool}
    (hasym : ∀ a b, lt a b = true → lt b a = false) {x y : α} (hyx : lt y x = true) :
    ∀ l : List α, headNotLtB lt y l = true → headNotLtB lt y (insertBy lt x l) = true := by
  intro l hh
  cases l with
  | nil => simpa [insertBy, headNotLtB] using hasym y x hyx
  | cons z zs =>
    rw [insertBy]
    by_cases hz : lt z x
    · rw [if_pos hz]
      exact hh
    · rw [if_neg hz]
      simpa [headNotLtB] using hasym y x hyx

/-- Insertion preserves sortedness, given asymmetry of the precedence test. -/
theorem chain_insertBy {α : Type} {lt : α → α → Bool}
    (hasym : ∀ a b, lt a b = true → lt b a = false) (x : α) :
    ∀ l : List α, chainDescOK lt l = true → chainDescOK lt (insertBy lt x l) = true := by
  intro l
  induction l with
  | nil => intro _; simp [insertBy, chainDescOK, headNotLtB]
  | cons z zs ih =>
    intro h
    rw [chainDescOK] at h
    have h1 := (Bool.and_eq_true_iff.mp h).1
    have h2 := (Bool.and_eq_true_iff.mp h).2
    rw [insertBy]
    by_cases hz : lt z x
    · rw [if_pos hz, chainDescOK]
      exact Bool.and_eq_true_iff.mpr ⟨headNotLt_insertBy hasym hz zs h1, ih h2⟩
    · rw [if_neg hz, chainDescOK, chainDescOK]
      refine Bool.and_eq_true_iff.mpr ⟨by simpa [headNotLtB] using hz, ?_⟩
      exact Bool.and_eq_true_iff.mpr ⟨h1, h2⟩

/-- The stable sort sorts, given asymmetry of the precedence test. -/
theorem chain_sortBy {α : Type} {lt : α → α → Bool}
    (hasym : ∀ a b, lt a b = true → lt b a = false) :
    ∀ l : List α, chainDescOK lt (sortBy lt l) = true := by
  intro l
  induction l with
  | nil => rfl
  | cons z zs ih => exact chain_insertBy hasym z _ ih

/-- The count precedence test is asymmetric. -/
theorem countLt_asym : ∀ a b : String × ℕ, countLt a b = true → countLt b a = false := by
  intro a b h
  simp [countLt] at h ⊢
  omega

set_option maxRecDepth 10000 in
/-- C5: on the batch of the two example jobs over the window 2025-01-01 to
2025-06-30, the skills counter outputs python with count 2 and aws with
count 1, python first; the job dated 2024-12-31 fails the window gate and
alone produces no counts; and in general every output count is positive
and the output is sorted by descending count. -/
theorem skills_counts_correct :
    skillsRun (2025, 1, 1) (2025, 6, 30) [skillsJobA, skillsJobB] = [("python", 2), ("aws", 1)] ∧
    jobInWindow (2025, 1, 1) (2025, 6, 30) skillsJobB = false ∧
    skillsRun (2025, 1, 1) (2025, 6, 30) [skillsJobB] = [] ∧
    (∀ sd ed jobs p, p ∈ skillsRun sd ed jobs → 0 < p.2) ∧
    (∀ sd ed jobs, chainDescOK countLt (skillsRun sd ed jobs) = true) := by
  refine ⟨by decide, by decide, by decide, ?_, ?_⟩
  · intro sd ed jobs p hp
    have := mem_sortBy hp
    exact (List.mem_filter.mp this).2 |> of_decide_eq_true
  · intro sd ed jobs
    exact chain_sortBy countLt_asym _

/-- String precedence is asymmetric. -/
theorem strLt_asym : ∀ a b : List Char, strLt a b = true → strLt b a = false := by
  intro a
  induction a with
  | nil =>
    intro b h
    cases b with
    | nil => cases h
    | cons b0 bs => rfl
  | cons a0 as ih =>
    intro b h
    cases b with
    | nil => cases h
    | cons b0 bs =>
      rw [strLt] at h ⊢
      rcases Bool.or_eq_true_iff.mp h with h' | h'
      · have hlt : a0.toNat < b0.toNat := by simpa using h'
        have h1 : (b0.toNat < a0.toNat) = False := by simp; omega
        have h2 : (b0 = a0) = False := by
          simp
          intro he
          rw [he] at hlt
          omega
        simp [h1, h2]
      · have he : a0 = b0 := by simpa using (Bool.and_eq_true_iff.mp h').1
        have hs : strLt as bs = true := (Bool.and_eq_true_iff.mp h').2
        subst he
        simp [ih bs hs]

/-- The statistics row precedence is asymmetric. -/
theorem statLt_asym : ∀ a b : (List Char × List Char) × ℕ,
    statLt a b = true → statLt b a = false := by
  intro a b h
  rw [statLt] at h ⊢
  by_cases hz : lowerKey a.1.1 = lowerKey b.1.1
  · rw [if_pos hz] at h
    rw [if_pos hz.symm]
    by_cases hc : a.2 = b.2
    · rw [if_pos hc] at h
      rw [if_pos hc.symm]
      exact strLt_asym _ _ h
    · rw [if_neg hc] at h
      rw [if_neg (fun he => hc he.symm)]
      simp at h ⊢
      omega
  · rw [if_neg hz] at h
    rw [if_neg (fun he => hz he.symm)]
    exact strLt_asym _ _ h

/-- Bumping a key makes it count one more than before. -/
theorem bump_lookup_same (k : List Char × List Char) :
    ∀ cs : List ((List Char × List Char) × ℕ),
      alookup k (bump cs k) = some ((alookup k cs).getD 0 + 1) := by
  intro cs
  induction cs with
  | nil =>
    show (if k = k then some 1 else none) = some (Option.getD none 0 + 1)
    simp
  | cons p rest ih =>
    obtain ⟨k0, n⟩ := p
    rw [bump]
    by_cases h0 : k0 = k
    · rw [if_pos h0]
      show (if k = k0 then some (n + 1) else _) = _
      rw [if_pos h0.symm]
      show _ = some ((if k = k0 then some n else alookup k rest).getD 0 + 1)
      rw [if_pos h0.symm]
      rfl
    · rw [if_neg h0]
      show (if k = k0 then some n else alookup k (bump rest k)) = _
      rw [if_neg (fun he => h0 he.symm), ih]
      show _ = some ((if k = k0 then some n else alookup k rest).getD 0 + 1)
      rw [if_neg (fun he => h0 he.symm)]

/-- Bumping a key does not touch the count of any other key. -/
theorem bump_lookup_other {k' k : List Char × List Char} (hne : k' ≠ k) :
    ∀ cs : List ((List Char × List Char) × ℕ),
      alookup k' (bump cs k) = alookup k' cs := by
  intro cs
  induction cs with
  | nil =>
    show (if k' = k then some 1 else none) = none
    simp [hne]
  | cons p rest ih =>
    obtain ⟨k0, n⟩ := p
    rw [bump]
    by_cases h0 : k0 = k
    · rw [if_pos h0]
      show (if k' = k0 then some (n + 1) else _) = if k' = k0 then some n else _
      rw [if_neg (h0 ▸ hne), if_neg (h0 ▸ hne)]
    · rw [if_neg h0]
      show (if k' = k0 then some n else _) = if k' = k0 then some n else _
      by_cases hk : k' = k0
      · rw [if_pos hk, if_pos hk]
      · rw [if_neg hk, if_neg hk]
        exact ih

/-- The statistics loop counts every key by the number of fetched details
whose raw zone and type pair is exactly that key (other keys untouched). -/
theorem foldl_statStep_lookup (key : List Char × List Char) :
    ∀ (l : List (Option JVal)) (cs : List ((List Char × List Char) × ℕ)),
      alookup key (l.foldl statStep cs) =
        (if (l.filterMap keyOf).count key = 0 then alookup key cs
         else some ((alookup key cs).getD 0 + (l.filterMap keyOf).count key)) := by
  intro l
  induction l with
  | nil => intro cs; simp
  | cons d rest ih =>
    intro cs
    rw [List.foldl_cons, List.filterMap_cons]
    rcases hd : keyOf d with _ | k
    · rw [show statStep cs d = cs by rw [statStep, hd]]
      exact ih cs
    · rw [show statStep cs d = bump cs k by rw [statStep, hd]]
      by_cases hk : key = k
      · subst hk
        rw [ih (bump cs key), List.count_cons_self, bump_lookup_same]
        by_cases h0 : (rest.filterMap keyOf).count key = 0
        · simp [h0]
        · rw [if_neg h0, if_neg (by omega)]
          simp
          omega
      · rw [ih (bump cs k), List.count_cons_of_ne (by simpa using hk),
          bump_lookup_other hk]

/-- C8: the aggregation counts by the raw zone and type pair, so Porto
Remote and porto remote hold two separate counts in the example batch (2
and 1); rows come out ordered by zone case-insensitively, then count
descending, then type case-insensitively; and in general the count of
every key equals the number of fetched details carrying exactly that raw
pair, and the output is sorted by the stated order. -/
theorem statistics_zone_type_correct :
    statisticsRows statExample =
      [((toL "Aveiro", toL "Hybrid"), 1), ((toL "Porto", toL "Remote"), 2),
       ((toL "porto", toL "a"), 1), ((toL "Porto", toL "b"), 1),
       ((toL "porto", toL "remote"), 1)] ∧
    (∀ (fetched : List (Option JVal)) (key : List Char × List Char),
      alookup key (aggregateCounts fetched) =
        (if (fetched.filterMap keyOf).count key = 0 then none
         else some ((fetched.filterMap keyOf).count key))) ∧
    (∀ fetched : List (Option JVal), chainDescOK statLt (statisticsRows fetched) = true) := by
  refine ⟨by decide, ?_, ?_⟩
  · intro fetched key
    have := foldl_statStep_lookup key fetched []
    rw [aggregateCounts, this]
    rcases h0 : (fetched.filterMap keyOf).count key with _ | n
    · simp [alookup]
    · simp [alookup]
  · intro fetched
    exact chain_sortBy statLt_asym _

/-- Before the first benefits header, the loop only scans for the header. -/
theorem benefitsLoop_false : ∀ ls : List (List Char),
    benefitsLoop false ls =
      (match dropThroughHdr ls with
       | none => []
       | some after => benefitsLoop true after) := by
  intro ls
  induction ls with
  | nil => rfl
  | cons s rest ih =>
    by_cases hh : hasBenefitsHdr s
    · rw [benefitsLoop, if_pos hh, dropThroughHdr, if_pos hh]
    · rw [benefitsLoop, if_neg hh, dropThroughHdr, if_neg hh]
      simpa using ih

/-- While collecting, the loop takes lines until a values-and-culture line
that is not itself a benefits header, and keeps from them the long-enough
bullets that are not themselves benefits headers. -/
theorem benefitsLoop_true : ∀ ls : List (List Char),
    benefitsLoop true ls =
      (ls.takeWhile (fun s => !(hasValoresHdr s && !hasBenefitsHdr s))).filterMap (fun s =>
        if !hasBenefitsHdr s && startsWithL bulletMark s &&
           decide (3 ≤ (pyStrip (s.drop 2)).length)
        then some (pyStrip (s.drop 2)) else none) := by
  intro ls
  induction ls with
  | nil => rfl
  | cons s rest ih =>
    by_cases hh : hasBenefitsHdr s
    · rw [benefitsLoop, if_pos hh, List.takeWhile_cons_of_pos (by simp [hh]),
        List.filterMap_cons_none (by simp [hh])]
      exact ih
    · by_cases hv : hasValoresHdr s
      · rw [benefitsLoop, if_neg hh, if_pos (by simp [hv]),
          List.takeWhile_cons_of_neg (by simp [hv, hh])]
        rfl
      · rw [benefitsLoop, if_neg hh, if_neg (by simp [hv]),
          List.takeWhile_cons_of_pos (by simp [hv])]
        by_cases hb : startsWithL bulletMark s
        · by_cases hl : 3 ≤ (pyStrip (s.drop 2)).length
          · have hc : (!hasBenefitsHdr s && startsWithL bulletMark s &&
                decide (3 ≤ (pyStrip (List.drop 2 s)).length)) = true := by simp [hh, hb, hl]
            rw [if_pos (by simp [hb]), if_pos hl, ih, List.filterMap_cons, if_pos hc]
          · rw [if_pos (by simp [hb]), if_neg hl,
              List.filterMap_cons_none (by simp [hl])]
            exact ih
        · rw [if_neg (by simp [hb]), List.filterMap_cons_none (by simp [hb])]
          exact ih

/-- C4, counterexample: a bullet line whose own text matches the benefits
header pattern. The code skips it (the header branch fires first and
continues), while the claim as stated collects every bullet-prefixed line
of the section: on the two-line page below the code extracts nothing and
the claimed rendering extracts the bullet. -/
theorem benefits_extraction_cex :
    benefitsFromText (toL "Beneficios e vantagens\n* abc Beneficios e vantagens") 5 = [] ∧
    benefitsClaimed (toL "Beneficios e vantagens\n* abc Beneficios e vantagens") 5 =
      [toL "abc Beneficios e vantagens"] := by
  constructor
  · decide
  · decide

/-- C4, amended: within the stripped lines of the benefits page, the code
collects the bullet-prefixed lines after the first benefits-header line
and before the next values-and-culture line that is not itself a benefits
header (or end of text), except that a bullet line matching the benefits
header pattern is skipped; bullets shorter than 3 characters after
trimming the marker and surrounding whitespace are discarded; duplicates
by normalized text are removed keeping first occurrence, and bullets with
empty normalized text are dropped; the result is truncated to the
configured top count (the call site passes 5). -/
theorem benefits_extraction_amended :
    ∀ (text : List Char) (topN : ℕ), benefitsFromText text topN = benefitsAmendedSpec text topN := by
  intro text topN
  rw [benefitsFromText, benefitsLoop_false, benefitsAmendedSpec]
  cases dropThroughHdr ((splitNL text).map pyStrip) with
  | none => simp [dedupNormAux]
  | some after => simp [benefitsLoop_true]

/-- C2, counterexample: on a ranking page whose visible text (Top) does
not contain the company name, the resolver still resolves the slug
through the unconditional guessed-link check, so resolution is not
attempted only when the name appears in the page text. -/
theorem resolver_gate_cex :
    containsSub (pyNorm (toL "acme"))
      (pyNorm (htmlToText (toL "<a href=\"/companies/acme\">Top</a>"))) = false ∧
    find_teamlyzer_company_slug (toL "acme")
      (some "<a href=\"/companies/acme\">Top</a>") (fun _ => none) 3 = some (toL "acme") :=
  ⟨by decide, by decide⟩

/-- C2, amended: on every fallback directory page the gate and the stated
priority hold exactly (nothing is attempted when the normalized name is
not a substring of the normalized page text, and otherwise the exact
guessed link, then a scanned slug that is a substring of the hyphenated
name, then a slug matching the name at word boundaries, first success
wins); on the curated ranking page only the scanned-slug heuristic is
gated, while the guessed-link check runs unconditionally after it; the
resolver returns on the first success across the ranking attempt and the
pages in order. -/
theorem resolver_priority_amended :
    (∀ target hyph guess : List Char, ∀ html : String,
      containsSub target (pyNorm (htmlToText (toL html))) = false →
      pageAttempt target hyph guess (some html) = none) ∧
    (∀ target hyph guess : List Char, ∀ html : String,
      containsSub target (pyNorm (htmlToText (toL html))) = true →
      pageAttempt target hyph guess (some html) =
        ((guessCheck (toL html) guess).orElse (fun _ =>
          (scanSubCheck (toL html) hyph).orElse (fun _ => scanWBCheck (toL html) hyph)))) ∧
    (∀ target hyph guess : List Char, ∀ html : String,
      containsSub target (pyNorm (htmlToText (toL html))) = false →
      rankingAttempt target hyph guess (some html) = guessCheck (toL html) guess) ∧
    (∀ target hyph guess : List Char, ∀ html : String,
      containsSub target (pyNorm (htmlToText (toL html))) = true →
      rankingAttempt target hyph guess (some html) =
        ((scanSubCheck (toL html) hyph).orElse (fun _ => guessCheck (toL html) guess))) ∧
    (∀ (name : List Char) (ranking : Option String) (pages : ℕ → Option String) (n : ℕ),
      (pyNorm name).isEmpty = false →
      find_teamlyzer_company_slug name ranking pages n =
        ((rankingAttempt (pyNorm name) (hyphenName name) (guessSlug name) ranking).orElse
          (fun _ => fallbackScan (pyNorm name) (hyphenName name) (guessSlug name) pages 1 n))) ∧
    (∀ target hyph guess : List Char, ∀ pages : ℕ → Option String, ∀ p r : ℕ,
      fallbackScan target hyph guess pages p (r + 1) =
        ((pageAttempt target hyph guess (pages p)).orElse
          (fun _ => fallbackScan target hyph guess pages (p + 1) r))) := by
  refine ⟨?_, ?_, ?_, ?_, ?_, ?_⟩
  · intro target hyph guess html hg
    rw [pageAttempt, if_neg (by simp [hg])]
  · intro target hyph guess html hg
    rw [pageAttempt, if_pos hg]
    rcases guessCheck (toL html) guess with _ | s
    · rcases scanSubCheck (toL html) hyph with _ | s
      · rfl
      · rfl
    · rfl
  · intro target hyph guess html hg
    rw [rankingAttempt, hg]
    rfl
  · intro target hyph guess html hg
    rw [rankingAttempt, hg]
    rcases scanSubCheck (toL html) hyph with _ | s
    · rfl
    · rfl
  · intro name ranking pages n hne
    rw [find_teamlyzer_company_slug, if_neg (by simp [hne])]
    rcases rankingAttempt (pyNorm name) (hyphenName name) (guessSlug name) ranking with _ | s
    · rfl
    · rfl
  · intro target hyph guess pages p r
    rw [fallbackScan]
    rcases pageAttempt target hyph guess (pages p) with _ | s
    · rfl
    · rfl

/-- Witness for the amended C2 theorem at concrete inputs. -/
theorem resolver_priority_amended_witness :
    (containsSub (pyNorm (toL "zzz")) (pyNorm (htmlToText (toL "<p>hello world</p>"))) = false ∧
      pageAttempt (pyNorm (toL "zzz")) (hyphenName (toL "zzz")) (guessSlug (toL "zzz"))
        (some "<p>hello world</p>") = none) ∧
    ((pyNorm (toL "acme")).isEmpty = false ∧
      find_teamlyzer_company_slug (toL "acme") none (fun _ => none) 2 =
        ((rankingAttempt (pyNorm (toL "acme")) (hyphenName (toL "acme"))
            (guessSlug (toL "acme")) none).orElse
          (fun _ => fallbackScan (pyNorm (toL "acme")) (hyphenName (toL "acme"))
            (guessSlug (toL "acme")) (fun _ => none) 1 2))) := by
  refine ⟨⟨by decide, ?_⟩, ⟨by decide, ?_⟩⟩
  · exact resolver_priority_amended.1 _ _ _ "<p>hello world</p>" (by decide)
  · exact resolver_priority_amended.2.2.2.2.1 (toL "acme") none (fun _ => none) 2 (by decide)

/-- The attempt on a fetched but empty page always fails: the gate cannot
hold for a non-empty target in empty text. -/
theorem pageAttempt_empty_html {t : List Char} (h : t.isEmpty = false) (hy g : List Char) :
    pageAttempt t hy g (some "") = none := by
  cases t with
  | nil => cases h
  | cons c cs =>
    rw [pageAttempt, if_neg (by simp [containsSub, htmlToText])]

/-- The fallback scan depends on the pages only through the per-page
attempts. -/
theorem fallbackScan_congr (t hy g : List Char) (pages1 pages2 : ℕ → Option String)
    (h : ∀ q, pageAttempt t hy g (pages1 q) = pageAttempt t hy g (pages2 q)) :
    ∀ r p, fallbackScan t hy g pages1 p r = fallbackScan t hy g pages2 p r := by
  intro r
  induction r with
  | zero => intro p; rfl
  | succ r ih =>
    intro p
    rw [fallbackScan, fallbackScan, h p]
    rcases pageAttempt t hy g (pages2 p) with _ | s
    · exact ih (p + 1)
    · rfl

/-- The fallback scan over failed fetches finds nothing. -/
theorem fallbackScan_allnone (t hy g : List Char) :
    ∀ r p, fallbackScan t hy g (fun _ => none) p r = none := by
  intro r
  induction r with
  | zero => intro p; rfl
  | succ r ih =>
    intro p
    rw [fallbackScan]
    exact ih (p + 1)

/-- C9: the resolver returns none, never an error (it is a total
function): on an empty normalized company name; and when the ranking
fetch and every fallback fetch fail; moreover a failed fetch of one
fallback page is exactly a no-match page: replacing the failing page by a
fetched page with no occurrence of the name leaves the result unchanged,
so the scan continues through the remaining pages either way. -/
theorem resolver_returns_none :
    (∀ (name : List Char) (ranking : Option String) (pages : ℕ → Option String) (n : ℕ),
      pyNorm name = [] → find_teamlyzer_company_slug name ranking pages n = none) ∧
    (∀ (name : List Char) (n : ℕ),
      find_teamlyzer_company_slug name none (fun _ => none) n = none) ∧
    (∀ (name : List Char) (ranking : Option String) (pages : ℕ → Option String) (n p : ℕ),
      pages p = none →
      find_teamlyzer_company_slug name ranking pages n =
        find_teamlyzer_company_slug name ranking
          (fun q => if q = p then some "" else pages q) n) := by
  refine ⟨?_, ?_, ?_⟩
  · intro name ranking pages n h
    rw [find_teamlyzer_company_slug, if_pos (by simp [h])]
  · intro name n
    rw [find_teamlyzer_company_slug]
    by_cases h : (pyNorm name).isEmpty
    · rw [if_pos h]
    · rw [if_neg h]
      rw [show rankingAttempt (pyNorm name) (hyphenName name) (guessSlug name) none =
        none from rfl]
      rw [fallbackScan_allnone]
  · intro name ranking pages n p hp
    rw [find_teamlyzer_company_slug, find_teamlyzer_company_slug]
    by_cases h : (pyNorm name).isEmpty
    · rw [if_pos h, if_pos h]
    · rw [if_neg h, if_neg h]
      have hcong := fallbackScan_congr (pyNorm name) (hyphenName name) (guessSlug name)
        pages (fun q => if q = p then some "" else pages q) ?_ n 1
      · rw [hcong]
      · intro q
        by_cases hq : q = p
        · subst hq
          rw [hp]
          show pageAttempt _ _ _ none = pageAttempt _ _ _ (if q = q then some "" else pages q)
          rw [if_pos rfl, pageAttempt_empty_html (by simpa using h)]
          rfl
        · show pageAttempt _ _ _ (pages q) = pageAttempt _ _ _ (if q = p then some "" else pages q)
          rw [if_neg hq]

/-- Witness for the C9 theorem at concrete inputs. -/
theorem resolver_returns_none_witness :
    (pyNorm (toL "  ") = [] ∧
      find_teamlyzer_company_slug (toL "  ") (some "<p>x</p>") (fun _ => none) 3 = none) ∧
    find_teamlyzer_company_slug (toL "acme") none (fun _ => none) 3 = none ∧
    ((fun _ : ℕ => (none : Option String)) 2 = none ∧
      find_teamlyzer_company_slug (toL "acme") none (fun _ => none) 3 =
        find_teamlyzer_company_slug (toL "acme") none
          (fun q => if q = 2 then some "" else none) 3) := by
  refine ⟨⟨by decide, ?_⟩, ?_, ⟨rfl, ?_⟩⟩
  · exact resolver_returns_none.1 (toL "  ") (some "<p>x</p>") (fun _ => none) 3 (by decide)
  · exact resolver_returns_none.2.1 (toL "acme") 3
  · exact resolver_returns_none.2.2 (toL "acme") none (fun _ => none) 3 2 rfl

